import Mathlib

/-!
Verification of the retrieval layer of the bns-legal-assistant repository.

Python strings are modelled as `List Char`, Python floats as exact numbers
(stored vector entries are rationals, cosine similarities are real numbers:
the code's floating-point arithmetic is modelled as exact arithmetic, and
the NaN produced by a zero-norm cosine similarity is modelled by its
observable behavior — every float comparison against it is false).
Stateful file access is modelled by passing the file contents explicitly:
a store is `Option (List StoredDoc)` where `none` is a missing (or
unreadable) file.
-/

/-- Whitespace test matching the characters Python's str.strip and
str.split treat as whitespace (ASCII range). -/
def isWs (c : Char) : Bool :=
  c = ' ' || c = '\t' || c = '\n' || c = '\r' || c = '\x0b' || c = '\x0c'

/-- Removal of trailing whitespace. -/
def trimRight (l : List Char) : List Char :=
  (l.reverse.dropWhile isWs).reverse

/-- Model of Python's str.strip: removal of leading and trailing whitespace. -/
def trim (l : List Char) : List Char :=
  (trimRight l).dropWhile isWs

/-- Model of Python's str.split with no argument restricted to one side:
the maximal whitespace-free runs of the string, in order.  The accumulator
holds the current run reversed. -/
def wordsAux : List Char → List Char → List (List Char)
  | acc, [] => if acc.isEmpty then [] else [acc.reverse]
  | acc, c :: cs =>
    if isWs c then
      if acc.isEmpty then wordsAux [] cs else acc.reverse :: wordsAux [] cs
    else
      wordsAux (c :: acc) cs

/-- Whitespace-separated words of a string. -/
def words (l : List Char) : List (List Char) :=
  wordsAux [] l

/-- Joining a list of strings with a separator, as Python's sep.join. -/
def joinSeq (sep : List Char) : List (List Char) → List Char
  | [] => []
  | [x] => x
  | x :: y :: rest => x ++ sep ++ joinSeq sep (y :: rest)

/-- Whitespace normalization: collapse whitespace runs to single spaces and
strip the ends, as Python's " ".join(s.split()). -/
def normalizeWs (l : List Char) : List Char :=
  joinSeq [' '] (words l)

/-- Model of Python's text.split(". "): split on each leftmost-first
non-overlapping occurrence of the two-character separator ". ". -/
def splitDotSpace : List Char → List (List Char)
  | [] => [[]]
  | [c] => [[c]]
  | c :: d :: cs =>
    if c = '.' && d = ' ' then
      [] :: splitDotSpace cs
    else
      match splitDotSpace (d :: cs) with
      | [] => [[c]]
      | s :: ss => (c :: s) :: ss

namespace BNSDataProcessor

/-- Loop body of BNSDataProcessor.chunk_text: the remaining sentences are
folded into (emitted chunks, current buffer).  A sentence is appended to the
buffer (followed by the ". " the code re-adds) when the buffer plus the bare
sentence stays under max_length; otherwise the non-empty buffer is emitted
stripped and a new buffer starts with that sentence.  The final non-empty
buffer is emitted stripped. -/
def chunkLoop (L : Nat) (chunks : List (List Char)) (current : List Char) :
    List (List Char) → List (List Char)
  | [] => if current.isEmpty then chunks else chunks ++ [trim current]
  | s :: ss =>
    if (current ++ s).length < L then
      chunkLoop L chunks (current ++ s ++ ['.', ' ']) ss
    else
      chunkLoop L (if current.isEmpty then chunks else chunks ++ [trim current])
        (s ++ ['.', ' ']) ss

/-- Model of BNSDataProcessor.chunk_text (src/data_processor.py lines 21-40):
split the text on ". ", then greedily accumulate sentences into chunks. -/
def chunk_text (text : List Char) (L : Nat) : List (List Char) :=
  chunkLoop L [] [] (splitDotSpace text)

/-- Retrievable document produced by process_section; only the fields the
claims are about are modelled (the uuid id and the copied-verbatim legal
metadata play no role in the chunking claims). -/
structure ProcDoc where
  content : List Char
  full_text : List Char
  chunk_index : Nat
  total_chunks : Nat
deriving DecidableEq

/-- Model of the enumerate loop of process_section: one document per chunk,
carrying its 0-based position and the shared chunk count. -/
def buildDocs (full : List Char) (total : Nat) : Nat → List (List Char) → List ProcDoc
  | _, [] => []
  | i, c :: cs =>
    { content := c, full_text := full, chunk_index := i, total_chunks := total }
      :: buildDocs full total (i + 1) cs

/-- Model of BNSDataProcessor.process_section (src/data_processor.py lines
42-73): join the section's paragraph list with single spaces, chunk it with
the default bound 512, and build one document per chunk. -/
def process_section (paras : List (List Char)) : List ProcDoc :=
  let sectionText := joinSeq [' '] paras
  let chunks := chunk_text sectionText 512
  buildDocs sectionText chunks.length 0 chunks

end BNSDataProcessor

theorem words_nil : words [] = [] := rfl

theorem isWs_space : isWs ' ' = true := rfl

/-- Splitting into words distributes over a whitespace character. -/
theorem wordsAux_ws_append {c : Char} (hc : isWs c = true) (b : List Char) :
    ∀ (a acc : List Char), wordsAux acc (a ++ c :: b) = wordsAux acc a ++ words b := by
  intro a
  induction a with
  | nil =>
    intro acc
    by_cases h : acc.isEmpty <;> simp [wordsAux, hc, h, words]
  | cons x a ih =>
    intro acc
    by_cases hx : isWs x
    · by_cases h : acc.isEmpty <;> simp [wordsAux, hx, h, ih]
    · simp [wordsAux, hx, ih]

theorem words_space_append (a b : List Char) :
    words (a ++ ' ' :: b) = words a ++ words b :=
  wordsAux_ws_append isWs_space b a []

/-- A trailing all-whitespace run does not change the words. -/
theorem wordsAux_allws (w : List Char) :
    (∀ c ∈ w, isWs c = true) → ∀ acc, wordsAux acc w = wordsAux acc [] := by
  induction w with
  | nil => intro _ _; rfl
  | cons c w ih =>
    intro hw acc
    have hc : isWs c = true := hw c (List.mem_cons_self _ _)
    have ih' := ih (fun x h => hw x (List.mem_cons_of_mem _ h))
    by_cases h : acc.isEmpty <;> simp [wordsAux, hc, h, ih']

theorem wordsAux_append_allws (w : List Char) (hw : ∀ c ∈ w, isWs c = true) :
    ∀ (l acc : List Char), wordsAux acc (l ++ w) = wordsAux acc l := by
  intro l
  induction l with
  | nil =>
    intro acc
    exact wordsAux_allws w hw acc
  | cons x l ih =>
    intro acc
    by_cases hx : isWs x
    · by_cases h : acc.isEmpty <;> simp [wordsAux, hx, h, ih]
    · simp [wordsAux, hx, ih]

theorem words_dropWhile (l : List Char) : words (l.dropWhile isWs) = words l := by
  induction l with
  | nil => rfl
  | cons c cs ih =>
    by_cases hc : isWs c
    · simpa [List.dropWhile_cons, hc, words, wordsAux] using ih
    · simp [List.dropWhile_cons, hc]

theorem words_trimRight (l : List Char) : words (trimRight l) = words l := by
  have hdec : l = trimRight l ++ (l.reverse.takeWhile isWs).reverse := by
    have h := List.takeWhile_append_dropWhile (p := isWs) (l := l.reverse)
    calc l = l.reverse.reverse := (List.reverse_reverse l).symm
    _ = (l.reverse.takeWhile isWs ++ l.reverse.dropWhile isWs).reverse := by rw [h]
    _ = trimRight l ++ (l.reverse.takeWhile isWs).reverse := by
        rw [List.reverse_append]; rfl
  have hw : ∀ c ∈ (l.reverse.takeWhile isWs).reverse, isWs c = true := by
    intro c hcmem
    exact List.mem_takeWhile_imp (List.mem_reverse.mp hcmem)
  conv_rhs => rw [hdec]
  exact (wordsAux_append_allws _ hw (trimRight l) []).symm

theorem words_trim (l : List Char) : words (trim l) = words l := by
  unfold trim
  rw [words_dropWhile, words_trimRight]

theorem words_joinSeq : ∀ cs : List (List Char),
    words (joinSeq [' '] cs) = (cs.map words).flatten
  | [] => rfl
  | [x] => by simp [joinSeq]
  | x :: y :: r => by
    have ih := words_joinSeq (y :: r)
    have hj : joinSeq [' '] (x :: y :: r) = x ++ ' ' :: joinSeq [' '] (y :: r) := by
      simp [joinSeq]
    rw [hj, words_space_append, ih]
    simp

theorem words_append_endsSpace (a y : List Char) :
    words ((a ++ [' ']) ++ y) = words (a ++ [' ']) ++ words y := by
  have h1 : (a ++ [' ']) ++ y = a ++ ' ' :: y := by simp
  have h2 : a ++ [' '] = a ++ ' ' :: ([] : List Char) := rfl
  rw [h1, words_space_append, h2, words_space_append, words_nil, List.append_nil]

theorem splitDotSpace_ne_nil : ∀ l : List Char, splitDotSpace l ≠ []
  | [] => by simp [splitDotSpace]
  | [c] => by simp [splitDotSpace]
  | c :: d :: cs => by
    have ih := splitDotSpace_ne_nil (d :: cs)
    rw [splitDotSpace]
    by_cases hb : (decide (c = '.') && decide (d = ' ')) = true
    · rw [if_pos hb]
      simp
    · rw [if_neg hb]
      cases hs : splitDotSpace (d :: cs) with
      | nil => exact absurd hs ih
      | cons s ss => simp

theorem joinSeq_cons_head (sep c : List Char) (s : List Char) (ss : List (List Char)) :
    joinSeq sep ((c ++ s) :: ss) = c ++ joinSeq sep (s :: ss) := by
  cases ss <;> simp [joinSeq]

theorem join_splitDotSpace : ∀ l : List Char, joinSeq ['.', ' '] (splitDotSpace l) = l
  | [] => rfl
  | [c] => rfl
  | c :: d :: cs => by
    have ih := join_splitDotSpace (d :: cs)
    have ihcs := join_splitDotSpace cs
    rw [splitDotSpace]
    by_cases hb : (decide (c = '.') && decide (d = ' ')) = true
    · have hc : c = '.' := by
        have := (Bool.and_eq_true _ _).mp hb
        exact of_decide_eq_true this.1
      have hd : d = ' ' := by
        have := (Bool.and_eq_true _ _).mp hb
        exact of_decide_eq_true this.2
      rw [if_pos hb]
      obtain ⟨s, ss, hs⟩ := List.exists_cons_of_ne_nil (splitDotSpace_ne_nil cs)
      rw [hs]
      have hstep : joinSeq ['.', ' '] ([] :: s :: ss)
          = '.' :: ' ' :: joinSeq ['.', ' '] (s :: ss) := by
        simp [joinSeq]
      rw [hstep, ← hs, ihcs, hc, hd]
    · rw [if_neg hb]
      obtain ⟨s, ss, hs⟩ := List.exists_cons_of_ne_nil (splitDotSpace_ne_nil (d :: cs))
      rw [hs]
      have hred : (match s :: ss with
          | [] => [[c]]
          | s :: ss => (c :: s) :: ss) = (c :: s) :: ss := rfl
      rw [hred]
      have hc : (c :: s) = [c] ++ s := rfl
      rw [hc, joinSeq_cons_head, ← hs, ih]
      rfl

theorem trim_length_le (l : List Char) : (trim l).length ≤ l.length := by
  unfold trim trimRight
  calc ((l.reverse.dropWhile isWs).reverse.dropWhile isWs).length
      ≤ (l.reverse.dropWhile isWs).reverse.length :=
        (List.dropWhile_sublist _).length_le
    _ = (l.reverse.dropWhile isWs).length := List.length_reverse _
    _ ≤ l.reverse.length := (List.dropWhile_sublist _).length_le
    _ = l.length := List.length_reverse _

theorem trim_append_space (a : List Char) : trim (a ++ [' ']) = trim a := by
  unfold trim trimRight
  rw [List.reverse_append]
  have : ([' '] : List Char).reverse ++ a.reverse = ' ' :: a.reverse := rfl
  rw [this, List.dropWhile_cons]
  simp [isWs]

/-- Character-count bound on each produced chunk: either the chunk fits in
the bound (inclusively: the appended delimiter can add one character past a
strict pre-check), or the chunk is a single oversized sentence emitted
whole. -/
def GoodChunk (L : Nat) (pool : List (List Char)) (c : List Char) : Prop :=
  c.length ≤ L ∨ ∃ s ∈ pool, L ≤ s.length ∧ c = trim (s ++ ['.', ' '])

/-- Invariant on the running buffer of the chunking loop. -/
def BufOK (L : Nat) (pool : List (List Char)) (cur : List Char) : Prop :=
  cur = [] ∨ ((∃ a, cur = a ++ [' ']) ∧
    (cur.length ≤ L + 1 ∨ ∃ s ∈ pool, L ≤ s.length ∧ cur = s ++ ['.', ' ']))

theorem emit_good {L : Nat} {pool : List (List Char)} {cur : List Char}
    (h : BufOK L pool cur) : GoodChunk L pool (trim cur) := by
  rcases h with h | ⟨⟨a, ha⟩, hlen | ⟨s, hs, hsl, hcur⟩⟩
  · left
    subst h
    simp [trim, trimRight]
  · left
    subst ha
    rw [trim_append_space]
    have h1 : a.length + 1 ≤ L + 1 := by simpa using hlen
    exact le_trans (trim_length_le a) (Nat.le_of_succ_le_succ h1)
  · right
    exact ⟨s, hs, hsl, by rw [hcur]⟩

theorem chunkLoop_good (L : Nat) (pool : List (List Char)) :
    ∀ ss : List (List Char), (∀ s ∈ ss, s ∈ pool) →
    ∀ (chunks : List (List Char)) (cur : List Char),
    (∀ c ∈ chunks, GoodChunk L pool c) → BufOK L pool cur →
    ∀ c ∈ BNSDataProcessor.chunkLoop L chunks cur ss, GoodChunk L pool c := by
  intro ss
  induction ss with
  | nil =>
    intro _ chunks cur hch hcur c hc
    unfold BNSDataProcessor.chunkLoop at hc
    by_cases he : cur.isEmpty
    · rw [if_pos he] at hc
      exact hch c hc
    · rw [if_neg he] at hc
      rcases List.mem_append.mp hc with h | h
      · exact hch c h
      · rw [List.mem_singleton.mp h]
        exact emit_good hcur
  | cons s ss ih =>
    intro hpool chunks cur hch hcur c hc
    have hspool : s ∈ pool := hpool s (List.mem_cons_self _ _)
    have hpool' : ∀ x ∈ ss, x ∈ pool := fun x h => hpool x (List.mem_cons_of_mem _ h)
    unfold BNSDataProcessor.chunkLoop at hc
    by_cases hlt : (cur ++ s).length < L
    · rw [if_pos hlt] at hc
      refine ih hpool' chunks (cur ++ s ++ ['.', ' ']) hch ?_ c hc
      right
      constructor
      · exact ⟨cur ++ s ++ ['.'], by simp⟩
      · left
        have : (cur ++ s ++ ['.', ' ']).length = (cur ++ s).length + 2 := by
          simp
          omega
        omega
    · rw [if_neg hlt] at hc
      have hch' : ∀ x ∈ (if cur.isEmpty then chunks else chunks ++ [trim cur]),
          GoodChunk L pool x := by
        by_cases he : cur.isEmpty
        · rw [if_pos he]; exact hch
        · rw [if_neg he]
          intro x hx
          rcases List.mem_append.mp hx with h | h
          · exact hch x h
          · rw [List.mem_singleton.mp h]
            exact emit_good hcur
      refine ih hpool' _ (s ++ ['.', ' ']) hch' ?_ c hc
      right
      constructor
      · exact ⟨s ++ ['.'], by simp⟩
      · by_cases hsl : s.length < L
        · left
          have : (s ++ ['.', ' ']).length = s.length + 2 := by simp
          omega
        · right
          exact ⟨s, hspool, by omega, rfl⟩

theorem words_append_of_buf {cur : List Char}
    (h : cur = [] ∨ ∃ a, cur = a ++ [' ']) (y : List Char) :
    words (cur ++ y) = words cur ++ words y := by
  rcases h with h | ⟨a, ha⟩
  · subst h; simp [words_nil]
  · subst ha; exact words_append_endsSpace a y

theorem words_sentence_append (s y : List Char) :
    words ((s ++ ['.', ' ']) ++ y) = words (s ++ ['.', ' ']) ++ words y := by
  have h : s ++ ['.', ' '] = (s ++ ['.']) ++ [' '] := by simp
  rw [h]
  exact words_append_endsSpace (s ++ ['.']) y

theorem chunkLoop_words (L : Nat) :
    ∀ (ss : List (List Char)) (chunks : List (List Char)) (cur : List Char),
    (cur = [] ∨ ∃ a, cur = a ++ [' ']) →
    ((BNSDataProcessor.chunkLoop L chunks cur ss).map words).flatten
      = (chunks.map words).flatten ++ words cur
        ++ words ((ss.map (· ++ ['.', ' '])).flatten) := by
  intro ss
  induction ss with
  | nil =>
    intro chunks cur hcur
    unfold BNSDataProcessor.chunkLoop
    by_cases he : cur.isEmpty
    · rw [if_pos he]
      have : cur = [] := by
        cases cur with
        | nil => rfl
        | cons x xs => simp [List.isEmpty] at he
      subst this
      simp [words_nil]
    · rw [if_neg he]
      simp only [List.map_append, List.flatten_append, List.map_nil,
        List.flatten_nil, words_nil, List.append_nil]
      simp [words_trim]
  | cons s ss ih =>
    intro chunks cur hcur
    unfold BNSDataProcessor.chunkLoop
    have hsent : words (((s :: ss).map (· ++ ['.', ' '])).flatten)
        = words (s ++ ['.', ' ']) ++ words ((ss.map (· ++ ['.', ' '])).flatten) := by
      simp only [List.map_cons, List.flatten_cons]
      exact words_sentence_append s _
    by_cases hlt : (cur ++ s).length < L
    · rw [if_pos hlt]
      rw [ih chunks (cur ++ s ++ ['.', ' '])
        (Or.inr ⟨cur ++ s ++ ['.'], by simp⟩)]
      have hs2 : cur ++ s ++ ['.', ' '] = cur ++ (s ++ ['.', ' ']) := by simp
      rw [hs2, words_append_of_buf hcur, hsent]
      simp [List.append_assoc]
    · rw [if_neg hlt]
      rw [ih _ (s ++ ['.', ' ']) (Or.inr ⟨s ++ ['.'], by simp⟩)]
      have hchnk : (((if cur.isEmpty then chunks else chunks ++ [trim cur])).map
            words).flatten = (chunks.map words).flatten ++ words cur := by
        by_cases he : cur.isEmpty
        · rw [if_pos he]
          have : cur = [] := by
            cases cur with
            | nil => rfl
            | cons x xs => simp [List.isEmpty] at he
          subst this
          simp [words_nil]
        · rw [if_neg he]
          simp [words_trim]
      rw [hchnk, hsent]
      simp [List.append_assoc]

theorem flatten_map_append_sep (d : List Char) :
    ∀ l : List (List Char), l ≠ [] → (l.map (· ++ d)).flatten = joinSeq d l ++ d
  | [], h => absurd rfl h
  | [x], _ => by simp [joinSeq]
  | x :: y :: r, _ => by
    have ih := flatten_map_append_sep d (y :: r) (by simp)
    simp only [List.map_cons, List.flatten_cons] at ih ⊢
    rw [ih]
    simp [joinSeq]

/-- Reconstruction at the level of words: joining the chunks of a text with
single spaces has the same whitespace-separated words as the text with one
trailing ". " delimiter appended. -/
theorem chunk_text_words (text : List Char) (L : Nat) :
    words (joinSeq [' '] (BNSDataProcessor.chunk_text text L))
      = words (text ++ ['.', ' ']) := by
  unfold BNSDataProcessor.chunk_text
  rw [words_joinSeq, chunkLoop_words L _ [] [] (Or.inl rfl)]
  simp only [List.map_nil, List.flatten_nil, List.nil_append, words_nil]
  have h := flatten_map_append_sep ['.', ' '] (splitDotSpace text)
    (splitDotSpace_ne_nil text)
  rw [h, join_splitDotSpace]

/-- C2 counterexample: chunking "abc. x" with bound L = 4 yields the chunk
"abc." whose length is exactly 4, not strictly less than 4, although every
sentence of the text is shorter than 4 characters (so the oversized-sentence
exception does not apply). -/
theorem C2_counterexample :
    BNSDataProcessor.chunk_text ("abc. x".toList) 4 = ["abc.".toList, "x.".toList]
    ∧ ¬ ("abc.".toList.length < 4)
    ∧ (∀ s ∈ splitDotSpace ("abc. x".toList), s.length < 4) := by
  decide

/-- C2 (amended): every chunk produced by chunk_text(text, L) has length at
most L — the bound is inclusive, because the two-character delimiter ". "
appended after the strict length pre-check leaves one extra character after
stripping — except for a chunk consisting of a single sentence of length at
least L, which is emitted whole (stripped, with the delimiter re-appended)
rather than truncated or split. -/
theorem C2_chunk_bound (text : List Char) (L : Nat) (hL : 0 < L) :
    ∀ c ∈ BNSDataProcessor.chunk_text text L,
      c.length ≤ L ∨ ∃ s ∈ splitDotSpace text, L ≤ s.length ∧ c = trim (s ++ ['.', ' ']) := by
  intro c hc
  exact chunkLoop_good L (splitDotSpace text) (splitDotSpace text) (fun _ h => h)
    [] [] (fun x hx => absurd hx (List.not_mem_nil x)) (Or.inl rfl) c hc

/-- Witness for C2_chunk_bound at text "abc. x", bound 4 and the concrete
chunk "abc." of the output. -/
theorem C2_chunk_bound_witness :
    0 < 4
    ∧ ("abc.".toList.length ≤ 4 ∨ ∃ s ∈ splitDotSpace ("abc. x".toList),
        4 ≤ s.length ∧ "abc.".toList = trim (s ++ ['.', ' '])) :=
  ⟨by decide, C2_chunk_bound ("abc. x".toList) 4 (by decide) ("abc.".toList) (by decide)⟩

/-- C3 counterexample: for T = "ab" and L = 512 the single chunk is "ab.",
which differs from T both directly and after whitespace normalization — the
chunker appends a period that is not in T. -/
theorem C3_counterexample :
    joinSeq [' '] (BNSDataProcessor.chunk_text ("ab".toList) 512) = "ab.".toList
    ∧ normalizeWs ("ab.".toList) ≠ normalizeWs ("ab".toList)
    ∧ joinSeq [' '] (BNSDataProcessor.chunk_text ("ab".toList) 512)
        ≠ normalizeWs ("ab".toList) := by
  decide

/-- C3 (amended): concatenating the chunks of chunk_text(T, L) with single
spaces yields, after whitespace normalization, T with the sentence delimiter
". " appended (the chunker re-appends ". " after every sentence, including
the last): no characters of T are dropped or reordered, but one trailing
period is added. -/
theorem C3_chunk_reconstruction (text : List Char) (L : Nat) (hL : 0 < L) :
    normalizeWs (joinSeq [' '] (BNSDataProcessor.chunk_text text L))
      = normalizeWs (text ++ ['.', ' ']) := by
  unfold normalizeWs
  rw [chunk_text_words]

/-- Witness for C3_chunk_reconstruction at text "ab" and bound 5. -/
theorem C3_chunk_reconstruction_witness :
    0 < 5
    ∧ normalizeWs (joinSeq [' '] (BNSDataProcessor.chunk_text ("ab".toList) 5))
        = normalizeWs ("ab".toList ++ ['.', ' ']) :=
  ⟨by decide, C3_chunk_reconstruction ("ab".toList) 5 (by decide)⟩

theorem buildDocs_length (full : List Char) (total : Nat) :
    ∀ (i : Nat) (cs : List (List Char)),
      (BNSDataProcessor.buildDocs full total i cs).length = cs.length := by
  intro i cs
  induction cs generalizing i with
  | nil => rfl
  | cons c cs ih => simp [BNSDataProcessor.buildDocs, ih]

theorem buildDocs_map_idx (full : List Char) (total : Nat) :
    ∀ (i : Nat) (cs : List (List Char)),
      (BNSDataProcessor.buildDocs full total i cs).map (fun d => d.chunk_index)
        = List.range' i cs.length := by
  intro i cs
  induction cs generalizing i with
  | nil => rfl
  | cons c cs ih => simp [BNSDataProcessor.buildDocs, ih, List.range'_succ]

theorem buildDocs_mem (full : List Char) (total : Nat) :
    ∀ (i : Nat) (cs : List (List Char)) (d : BNSDataProcessor.ProcDoc),
      d ∈ BNSDataProcessor.buildDocs full total i cs →
      d.total_chunks = total ∧ d.chunk_index < i + cs.length := by
  intro i cs
  induction cs generalizing i with
  | nil => intro d hd; exact absurd hd (List.not_mem_nil d)
  | cons c cs ih =>
    intro d hd
    rcases List.mem_cons.mp hd with h | h
    · subst h
      constructor
      · rfl
      · simp
    · obtain ⟨h1, h2⟩ := ih (i + 1) d h
      refine ⟨h1, ?_⟩
      simp only [List.length_cons]
      omega

/-- C7: the documents produced for one section carry chunk_index values
0, 1, 2, ... in output order (their chunk_index sequence is exactly
range of the output length), every chunk_index is strictly below
total_chunks, and total_chunks equals the number of produced documents
(the section's chunk count) on every document. -/
theorem C7_chunk_indices (paras : List (List Char)) :
    ((BNSDataProcessor.process_section paras).map (fun d => d.chunk_index)
        = List.range (BNSDataProcessor.process_section paras).length)
    ∧ (∀ d ∈ BNSDataProcessor.process_section paras, d.chunk_index < d.total_chunks)
    ∧ (∀ d ∈ BNSDataProcessor.process_section paras,
        d.total_chunks = (BNSDataProcessor.process_section paras).length) := by
  unfold BNSDataProcessor.process_section
  set t := joinSeq [' '] paras
  set cs := BNSDataProcessor.chunk_text t 512 with hcs
  refine ⟨?_, ?_, ?_⟩
  · rw [buildDocs_map_idx, buildDocs_length, List.range_eq_range']
  · intro d hd
    obtain ⟨h1, h2⟩ := buildDocs_mem t cs.length 0 cs d hd
    omega
  · intro d hd
    obtain ⟨h1, _⟩ := buildDocs_mem t cs.length 0 cs d hd
    rw [h1, buildDocs_length]

/-- C8 counterexample: a section with an empty paragraph list yields exactly
one Document whose content is the one-character string "." — the section is
neither skipped nor given empty content, refuting both allowed behaviors. -/
theorem C8_counterexample :
    BNSDataProcessor.process_section []
      = [{ content := ['.'], full_text := [], chunk_index := 0, total_chunks := 1 }]
    ∧ BNSDataProcessor.process_section [] ≠ []
    ∧ ∀ d ∈ BNSDataProcessor.process_section [], d.content ≠ [] := by
  decide

/-- C8 (amended): a section whose paragraph list is empty yields exactly one
Document; its full_text is empty but its content is the one-character string
"." that the chunker fabricates by appending the sentence delimiter to the
empty sentence. -/
theorem C8_empty_section :
    BNSDataProcessor.process_section []
      = [{ content := ['.'], full_text := [], chunk_index := 0, total_chunks := 1 }] := by
  decide

/-- Stored document record of the fallback file bns_vector_data.json.  A
record is a JSON object whose keys may or may not be present: the fields the
search claims depend on are modelled, optional ones as Option (the id, the
embedding vector, and a possible score key; the remaining payload fields are
carried verbatim and play no role in ranking). -/
structure StoredDoc where
  id : String
  embedding : Option (List ℚ)
  score : Option ℚ
deriving DecidableEq

/-- Dot product of two equal-length vectors (np.dot on 1-D arrays). -/
def dotl (a b : List ℚ) : ℚ :=
  (List.zipWith (· * ·) a b).sum

/-- Sum of squares of a vector's entries. -/
def sumSq (a : List ℚ) : ℚ :=
  dotl a a

/-- Euclidean norm (np.linalg.norm): square root of the sum of squares. -/
noncomputable def normE (a : List ℚ) : ℝ :=
  Real.sqrt ((sumSq a : ℚ) : ℝ)

/-- Cosine similarity as computed in search_in_file when neither norm is
zero: dot product of query and embedding divided by the product of their
Euclidean norms (real arithmetic models the code's float arithmetic).  When
a norm is zero the program's value is the float NaN, not a real number:
that case is represented by nanSim and the always-false comparisons of
simLT, never by this function's x / 0 = 0 convention, which the theorems do
not rely on. -/
noncomputable def cosSim (q e : List ℚ) : ℝ :=
  ((dotl q e : ℚ) : ℝ) / (normE q * normE e)

/-- Decidable comparison equivalent to cosSim q a ≤ cosSim q b (proved in
simLE_iff): square roots are eliminated by sign analysis and squaring, so
the comparator the sort runs on stays executable. -/
def simLE (q a b : List ℚ) : Bool :=
  let u := dotl q a
  let v := dotl q b
  let A := sumSq a
  let B := sumSq b
  if sumSq q = 0 then true
  else if A = 0 then (if B = 0 then true else decide (0 ≤ v))
  else if B = 0 then decide (u ≤ 0)
  else if u ≤ 0 then (if 0 ≤ v then true else decide (v ^ 2 * A ≤ u ^ 2 * B))
  else if v ≤ 0 then false
  else decide (u ^ 2 * B ≤ v ^ 2 * A)

/-- A query/embedding pair whose cosine similarity is the float NaN: a zero
norm makes the program compute np.float64 0.0/0.0 (the numerator is then
also zero), which is a RuntimeWarning, not an exception — the NaN value
flows on into the sort. -/
def nanSim (q e : List ℚ) : Bool :=
  decide (sumSq q = 0) || decide (sumSq e = 0)

/-- Python's float less-than on two computed similarity values: any
comparison against NaN is false; on two non-NaN values it is the real
strict order of the cosine similarities (decided by simLE). -/
def simLT (q a b : List ℚ) : Bool :=
  if nanSim q a || nanSim q b then false else !(simLE q b a)

/-- One binary-search probe loop of CPython's binarysort
(Objects/listobject.c): find the insertion point for x in the slice [l, r)
of s, probing the floor midpoint and narrowing with the comparator lt
exactly as the C code does (if lt x s[m] then r = m else l = m + 1).  The
out-of-range default of getD is never read for in-range calls. -/
def binProbe (lt : α → α → Bool) (x : α) (s : List α) (l r : Nat) : Nat :=
  if l < r then
    if lt x (s.getD (l + (r - l) / 2) x) then
      binProbe lt x s l (l + (r - l) / 2)
    else
      binProbe lt x s (l + (r - l) / 2 + 1) r
  else l
termination_by r - l
decreasing_by
  · have h2 : (r - l) / 2 < r - l := Nat.div_lt_self (by omega) (by omega)
    omega
  · omega

/-- Binary insertion of x into the sorted prefix s, as CPython's
binarysort places each next element. -/
def binInsertPy (lt : α → α → Bool) (s : List α) (x : α) : List α :=
  s.take (binProbe lt x s 0 s.length) ++ x :: s.drop (binProbe lt x s 0 s.length)

/-- CPython's binarysort: insert the remaining elements one by one into the
sorted run. -/
def binarysortPy (lt : α → α → Bool) : List α → List α → List α
  | run, [] => run
  | run, x :: xs => binarysortPy lt (binInsertPy lt run x) xs

/-- Extension of a strictly descending initial run (CPython's count_run,
descending branch): keep taking elements while lt next prev. -/
def descRunAux (lt : α → α → Bool) (prev : α) : List α → List α × List α
  | [] => ([prev], [])
  | z :: zs =>
    if lt z prev then
      ((descRunAux lt z zs).1.cons prev, (descRunAux lt z zs).2)
    else ([prev], z :: zs)

/-- Extension of a weakly ascending initial run (CPython's count_run,
ascending branch): keep taking elements while not lt next prev. -/
def ascRunAux (lt : α → α → Bool) (prev : α) : List α → List α × List α
  | [] => ([prev], [])
  | z :: zs =>
    if lt z prev then ([prev], z :: zs)
    else ((ascRunAux lt z zs).1.cons prev, (ascRunAux lt z zs).2)

/-- CPython's count_run: the maximal weakly ascending initial run, or a
maximal strictly descending initial run which is then reversed in place;
returns the (already normalized) run and the remaining elements. -/
def countRunPy (lt : α → α → Bool) : List α → List α × List α
  | [] => ([], [])
  | [x] => ([x], [])
  | x :: y :: rest =>
    if lt y x then
      (((descRunAux lt y rest).1.cons x).reverse, (descRunAux lt y rest).2)
    else
      ((ascRunAux lt y rest).1.cons x, (ascRunAux lt y rest).2)

/-- CPython's list.sort for fewer than 64 elements (the whole algorithm is
then count_run followed by binarysort).  For 64 or more elements CPython
merges runs instead; whenever the comparator lt is the strict part of a
total preorder — in the program: no NaN keys — that merge also computes the
unique stable ascending sort, which this function provably computes, so the
model is exact there as well.  On NaN keys the model is the literal
small-list algorithm. -/
def pysortAsc (lt : α → α → Bool) (l : List α) : List α :=
  binarysortPy lt (countRunPy lt l).1 (countRunPy lt l).2

/-- Python's list.sort(key=..., reverse=True), as CPython implements
reverse=True: reverse the list, sort ascending (stably), reverse again. -/
def pysortDesc (lt : α → α → Bool) (l : List α) : List α :=
  (pysortAsc lt l.reverse).reverse

/-- Embedding of a stored document as read by search_in_file (missing key
modelled separately by embOK and the isSome filters). -/
def emb (d : StoredDoc) : List ℚ :=
  d.embedding.getD []

/-- A stored document whose similarity can be computed against query q: the
embedding key is present and the vector has the query's dimension (np.dot
raises on a 1-D shape mismatch, which the except-handlers turn into an empty
result). -/
def embOK (q : List ℚ) (d : StoredDoc) : Bool :=
  d.embedding.isSome && decide ((emb d).length = q.length)

/-- Comparator on stored documents as the sort's lambda key uses it: the
Python float less-than of the two computed cosine similarities (false
whenever either similarity is NaN). -/
def docLT (q : List ℚ) (a b : StoredDoc) : Bool :=
  simLT q (emb a) (emb b)

namespace DataStaxVectorDB

/-- Model of DataStaxVectorDB.insert_to_file (src/vector_db.py lines
151-160): the file is fully overwritten with the given documents; the
returned value is the new store contents. -/
def insert_to_file (docs : List StoredDoc) : Option (List StoredDoc) :=
  some docs

/-- Model of DataStaxVectorDB.search_in_file (src/vector_db.py lines
189-214).  A missing or unreadable file raises and the handler returns [].
Otherwise every document's embedding is read with doc['embedding'] — if any
document lacks the key, or any dot product fails on a dimension mismatch,
the exception aborts the whole scan and the handler returns [].  Otherwise
the (similarity, doc) pairs are sorted by list.sort(key, reverse=True) —
modelled literally by pysortDesc over the Python float comparator docLT, so
that NaN similarities from zero-norm vectors behave as in the program — and
the first limit documents are returned. -/
def search_in_file (store : Option (List StoredDoc)) (q : List ℚ) (limit : Nat) :
    List StoredDoc :=
  match store with
  | none => []
  | some docs =>
    if docs.all (embOK q) then (pysortDesc (docLT q) docs).take limit else []

end DataStaxVectorDB

namespace QdrantVectorDB

/-- Model of QdrantVectorDB.insert_to_file (src/vector_db_qdrant.py lines
128-137): full overwrite of the fallback file. -/
def insert_to_file (docs : List StoredDoc) : Option (List StoredDoc) :=
  some docs

/-- Model of QdrantVectorDB.search_in_file (src/vector_db_qdrant.py lines
196-232).  A missing file or an empty document list returns [] explicitly.
Documents without an embedding key are skipped by the explicit continue;
a dimension mismatch on a present embedding still raises and the handler
returns [].  The remaining documents are sorted by
list.sort(key, reverse=True) — modelled literally by pysortDesc over the
Python float comparator docLT, NaN similarities included — and truncated to
limit. -/
def search_in_file (store : Option (List StoredDoc)) (q : List ℚ) (limit : Nat) :
    List StoredDoc :=
  match store with
  | none => []
  | some docs =>
    if docs.isEmpty then []
    else
      if (docs.filter (fun d => d.embedding.isSome)).all (embOK q) then
        (pysortDesc (docLT q) (docs.filter (fun d => d.embedding.isSome))).take limit
      else []

end QdrantVectorDB

theorem sumSq_nonneg (a : List ℚ) : 0 ≤ sumSq a := by
  unfold sumSq dotl
  rw [List.zipWith_same]
  apply List.sum_nonneg
  intro x hx
  obtain ⟨y, _, rfl⟩ := List.mem_map.mp hx
  exact mul_self_nonneg y

theorem normE_nonneg (a : List ℚ) : 0 ≤ normE a := Real.sqrt_nonneg _

theorem normE_zero (a : List ℚ) (h : sumSq a = 0) : normE a = 0 := by
  unfold normE
  rw [h]
  simp

theorem normE_pos (a : List ℚ) (h : sumSq a ≠ 0) : 0 < normE a := by
  unfold normE
  rw [Real.sqrt_pos]
  have h2 : (0 : ℚ) < sumSq a := lt_of_le_of_ne (sumSq_nonneg a) (Ne.symm h)
  exact_mod_cast h2

theorem mul_sqrt_le_mul_sqrt {u v A B : ℝ} (hu : 0 ≤ u) (hv : 0 ≤ v)
    (hA : 0 ≤ A) (hB : 0 ≤ B) :
    u * Real.sqrt B ≤ v * Real.sqrt A ↔ u ^ 2 * B ≤ v ^ 2 * A := by
  have h1 : u * Real.sqrt B = Real.sqrt (u ^ 2 * B) := by
    rw [Real.sqrt_mul (sq_nonneg u), Real.sqrt_sq hu]
  have h2 : v * Real.sqrt A = Real.sqrt (v ^ 2 * A) := by
    rw [Real.sqrt_mul (sq_nonneg v), Real.sqrt_sq hv]
  rw [h1, h2, Real.sqrt_le_sqrt_iff (by positivity)]

theorem normE_eq_sqrt (a : List ℚ) : normE a = Real.sqrt ((sumSq a : ℚ) : ℝ) := rfl

/-- The executable comparator simLE agrees with the real-valued cosine
similarity ordering. -/
theorem simLE_iff (q a b : List ℚ) :
    simLE q a b = true ↔ cosSim q a ≤ cosSim q b := by
  unfold simLE cosSim
  by_cases hQ : sumSq q = 0
  · rw [if_pos hQ, normE_zero q hQ]
    simp
  · rw [if_neg hQ]
    have hQpos : 0 < normE q := normE_pos q hQ
    by_cases hA : sumSq a = 0
    · rw [if_pos hA, normE_zero a hA]
      by_cases hB : sumSq b = 0
      · rw [if_pos hB, normE_zero b hB]
        simp
      · have hBpos : 0 < normE b := normE_pos b hB
        rw [if_neg hB]
        have hc : 0 < normE q * normE b := mul_pos hQpos hBpos
        simp only [mul_zero, div_zero, decide_eq_true_eq]
        rw [le_div_iff₀ hc, zero_mul]
        exact ⟨fun h => by exact_mod_cast h, fun h => by exact_mod_cast h⟩
    · have hApos : 0 < normE a := normE_pos a hA
      rw [if_neg hA]
      by_cases hB : sumSq b = 0
      · rw [if_pos hB, normE_zero b hB]
        have hc : 0 < normE q * normE a := mul_pos hQpos hApos
        simp only [mul_zero, div_zero, decide_eq_true_eq]
        rw [div_le_iff₀ hc, zero_mul]
        exact ⟨fun h => by exact_mod_cast h, fun h => by exact_mod_cast h⟩
      · have hBpos : 0 < normE b := normE_pos b hB
        rw [if_neg hB]
        have hca : 0 < normE q * normE a := mul_pos hQpos hApos
        have hcb : 0 < normE q * normE b := mul_pos hQpos hBpos
        have key : (((dotl q a : ℚ) : ℝ) / (normE q * normE a)
              ≤ ((dotl q b : ℚ) : ℝ) / (normE q * normE b))
            ↔ (((dotl q a : ℚ) : ℝ) * normE b ≤ ((dotl q b : ℚ) : ℝ) * normE a) := by
          rw [div_le_div_iff₀ hca hcb]
          have h1 : ((dotl q a : ℚ) : ℝ) * (normE q * normE b)
              = normE q * (((dotl q a : ℚ) : ℝ) * normE b) := by ring
          have h2 : ((dotl q b : ℚ) : ℝ) * (normE q * normE a)
              = normE q * (((dotl q b : ℚ) : ℝ) * normE a) := by ring
          rw [h1, h2, mul_le_mul_left hQpos]
        rw [key]
        have hAc : (0 : ℝ) ≤ ((sumSq a : ℚ) : ℝ) := by exact_mod_cast sumSq_nonneg a
        have hBc : (0 : ℝ) ≤ ((sumSq b : ℚ) : ℝ) := by exact_mod_cast sumSq_nonneg b
        by_cases hu0 : dotl q a ≤ 0
        · rw [if_pos hu0]
          have huc : ((dotl q a : ℚ) : ℝ) ≤ 0 := by exact_mod_cast hu0
          by_cases hv0 : 0 ≤ dotl q b
          · rw [if_pos hv0]
            have hvc : (0 : ℝ) ≤ ((dotl q b : ℚ) : ℝ) := by exact_mod_cast hv0
            refine iff_of_true rfl ?_
            calc ((dotl q a : ℚ) : ℝ) * normE b ≤ 0 :=
                  mul_nonpos_iff.mpr (Or.inr ⟨huc, normE_nonneg b⟩)
              _ ≤ ((dotl q b : ℚ) : ℝ) * normE a := mul_nonneg hvc (normE_nonneg a)
          · rw [if_neg hv0]
            push_neg at hv0
            have hvc : ((dotl q b : ℚ) : ℝ) < 0 := by exact_mod_cast hv0
            rw [decide_eq_true_eq]
            have hneg : (((dotl q a : ℚ) : ℝ) * normE b ≤ ((dotl q b : ℚ) : ℝ) * normE a)
                ↔ ((-((dotl q b : ℚ) : ℝ)) * normE a ≤ (-((dotl q a : ℚ) : ℝ)) * normE b) := by
              constructor
              · intro h; nlinarith
              · intro h; nlinarith
            rw [hneg, normE_eq_sqrt a, normE_eq_sqrt b,
              mul_sqrt_le_mul_sqrt (by linarith) (by linarith) hBc hAc,
              neg_sq, neg_sq]
            exact ⟨fun h => by exact_mod_cast h, fun h => by exact_mod_cast h⟩
        · rw [if_neg hu0]
          push_neg at hu0
          have huc : (0 : ℝ) < ((dotl q a : ℚ) : ℝ) := by exact_mod_cast hu0
          by_cases hv0 : dotl q b ≤ 0
          · rw [if_pos hv0]
            have hvc : ((dotl q b : ℚ) : ℝ) ≤ 0 := by exact_mod_cast hv0
            refine iff_of_false (by simp) (not_le.mpr ?_)
            calc ((dotl q b : ℚ) : ℝ) * normE a ≤ 0 :=
                  mul_nonpos_iff.mpr (Or.inr ⟨hvc, normE_nonneg a⟩)
              _ < ((dotl q a : ℚ) : ℝ) * normE b := mul_pos huc (normE_pos b hB)
          · rw [if_neg hv0]
            push_neg at hv0
            have hvc : (0 : ℝ) < ((dotl q b : ℚ) : ℝ) := by exact_mod_cast hv0
            rw [decide_eq_true_eq, normE_eq_sqrt a, normE_eq_sqrt b,
              mul_sqrt_le_mul_sqrt huc.le hvc.le hAc hBc]
            exact ⟨fun h => by exact_mod_cast h, fun h => by exact_mod_cast h⟩

/-- Linear characterization of the binarysort insertion point: x goes
immediately before the first element e of the sorted run with lt x e.
binInsertPy_eq_insertLin shows the binary probe loop lands exactly here
whenever the probe predicate is monotone along the run. -/
def insertLin (lt : α → α → Bool) (x : α) : List α → List α
  | [] => [x]
  | e :: es => if lt x e then x :: e :: es else e :: insertLin lt x es

theorem insertLin_perm (lt : α → α → Bool) (x : α) :
    ∀ s : List α, (insertLin lt x s).Perm (x :: s) := by
  intro s
  induction s with
  | nil => exact List.Perm.refl _
  | cons e es ih =>
    unfold insertLin
    by_cases h : lt x e = true
    · rw [if_pos h]
    · rw [if_neg h]
      exact (ih.cons e).trans (List.Perm.swap x e es)

theorem binInsertPy_perm (lt : α → α → Bool) (s : List α) (x : α) :
    (binInsertPy lt s x).Perm (x :: s) := by
  unfold binInsertPy
  have h := @List.perm_middle _ x (s.take (binProbe lt x s 0 s.length))
    (s.drop (binProbe lt x s 0 s.length))
  rw [List.take_append_drop] at h
  exact h

theorem binarysortPy_perm (lt : α → α → Bool) :
    ∀ rest run : List α, (binarysortPy lt run rest).Perm (run ++ rest) := by
  intro rest
  induction rest with
  | nil =>
    intro run
    rw [List.append_nil]
    exact List.Perm.refl _
  | cons x xs ih =>
    intro run
    have h1 := ih (binInsertPy lt run x)
    have h2 : (binInsertPy lt run x ++ xs).Perm (run ++ x :: xs) := by
      have h3 := (binInsertPy_perm lt run x).append_right xs
      exact h3.trans List.perm_middle.symm
    exact h1.trans h2

theorem descRunAux_concat (lt : α → α → Bool) :
    ∀ (zs : List α) (prev : α),
      (descRunAux lt prev zs).1 ++ (descRunAux lt prev zs).2 = prev :: zs := by
  intro zs
  induction zs with
  | nil => intro prev; rfl
  | cons z zs ih =>
    intro prev
    unfold descRunAux
    by_cases h : lt z prev = true
    · rw [if_pos h]
      show prev :: ((descRunAux lt z zs).1 ++ (descRunAux lt z zs).2) = prev :: z :: zs
      rw [ih z]
    · rw [if_neg h]
      rfl

theorem ascRunAux_concat (lt : α → α → Bool) :
    ∀ (zs : List α) (prev : α),
      (ascRunAux lt prev zs).1 ++ (ascRunAux lt prev zs).2 = prev :: zs := by
  intro zs
  induction zs with
  | nil => intro prev; rfl
  | cons z zs ih =>
    intro prev
    unfold ascRunAux
    by_cases h : lt z prev = true
    · rw [if_pos h]
      rfl
    · rw [if_neg h]
      show prev :: ((ascRunAux lt z zs).1 ++ (ascRunAux lt z zs).2) = prev :: z :: zs
      rw [ih z]

theorem countRunPy_decomp (lt : α → α → Bool) (l : List α) :
    ∃ pre : List α, pre ++ (countRunPy lt l).2 = l ∧ (countRunPy lt l).1.Perm pre := by
  match l with
  | [] => exact ⟨[], rfl, List.Perm.refl _⟩
  | [x] => exact ⟨[x], rfl, List.Perm.refl _⟩
  | x :: y :: rest =>
    have hred : countRunPy lt (x :: y :: rest)
        = if lt y x = true then
            (((descRunAux lt y rest).1.cons x).reverse, (descRunAux lt y rest).2)
          else ((ascRunAux lt y rest).1.cons x, (ascRunAux lt y rest).2) := rfl
    rw [hred]
    by_cases h : lt y x = true
    · rw [if_pos h]
      refine ⟨(descRunAux lt y rest).1.cons x, ?_, List.reverse_perm _⟩
      show x :: ((descRunAux lt y rest).1 ++ (descRunAux lt y rest).2) = x :: y :: rest
      rw [descRunAux_concat]
    · rw [if_neg h]
      refine ⟨(ascRunAux lt y rest).1.cons x, ?_, List.Perm.refl _⟩
      show x :: ((ascRunAux lt y rest).1 ++ (ascRunAux lt y rest).2) = x :: y :: rest
      rw [ascRunAux_concat]

theorem pysortAsc_perm (lt : α → α → Bool) (l : List α) :
    (pysortAsc lt l).Perm l := by
  unfold pysortAsc
  obtain ⟨pre, hpre, hperm⟩ := countRunPy_decomp lt l
  have h1 := binarysortPy_perm lt (countRunPy lt l).2 (countRunPy lt l).1
  have h2 : ((countRunPy lt l).1 ++ (countRunPy lt l).2).Perm
      (pre ++ (countRunPy lt l).2) := hperm.append_right _
  rw [hpre] at h2
  exact h1.trans h2

theorem pysortDesc_perm (lt : α → α → Bool) (l : List α) :
    (pysortDesc lt l).Perm l :=
  (List.reverse_perm _).trans ((pysortAsc_perm lt l.reverse).trans (List.reverse_perm l))

theorem pysortDesc_length (lt : α → α → Bool) (l : List α) :
    (pysortDesc lt l).length = l.length :=
  (pysortDesc_perm lt l).length_eq

theorem getD_eq_get_of_lt (l : List α) (d : α) {i : Nat} (h : i < l.length) :
    l.getD i d = l.get ⟨i, h⟩ := by
  rw [List.getD_eq_get?, List.get?_eq_get h]
  rfl

/-- The binary probe loop finds the boundary of the monotone predicate
i maps-to lt x s[i] on [l, r): everything below the returned position
compares false, everything from it up to r compares true. -/
theorem binProbe_spec (lt : α → α → Bool) (x : α) (s : List α) :
    ∀ (n l r : Nat), r - l = n → l ≤ r →
      (∀ i j, l ≤ i → i ≤ j → j < r →
        lt x (s.getD i x) = true → lt x (s.getD j x) = true) →
      (l ≤ binProbe lt x s l r ∧ binProbe lt x s l r ≤ r)
      ∧ (∀ i, l ≤ i → i < binProbe lt x s l r → lt x (s.getD i x) = false)
      ∧ (∀ i, binProbe lt x s l r ≤ i → i < r → lt x (s.getD i x) = true) := by
  intro n
  induction n using Nat.strong_induction_on with
  | _ n ihn =>
    intro l r hn hlr hmono
    rw [binProbe]
    by_cases h : l < r
    · rw [if_pos h]
      have hml : l ≤ l + (r - l) / 2 := by omega
      have hmr : l + (r - l) / 2 < r := by
        have h2 : (r - l) / 2 < r - l := Nat.div_lt_self (by omega) (by omega)
        omega
      by_cases hx : lt x (s.getD (l + (r - l) / 2) x) = true
      · rw [if_pos hx]
        have ih := ihn ((l + (r - l) / 2) - l) (by omega) l (l + (r - l) / 2) rfl hml
          (fun i j h1 h2 h3 h4 => hmono i j h1 h2 (by omega) h4)
        obtain ⟨⟨ih1, ih2⟩, ih3, ih4⟩ := ih
        refine ⟨⟨ih1, by omega⟩, ih3, ?_⟩
        intro i hi1 hi2
        by_cases him : i < l + (r - l) / 2
        · exact ih4 i hi1 him
        · exact hmono (l + (r - l) / 2) i hml (by omega) hi2 hx
      · rw [if_neg hx]
        have ih := ihn (r - (l + (r - l) / 2 + 1)) (by omega) (l + (r - l) / 2 + 1) r
          rfl (by omega) (fun i j h1 h2 h3 h4 => hmono i j (by omega) h2 h3 h4)
        obtain ⟨⟨ih1, ih2⟩, ih3, ih4⟩ := ih
        refine ⟨⟨by omega, ih2⟩, ?_, ih4⟩
        intro i hi1 hi2
        by_cases him : l + (r - l) / 2 + 1 ≤ i
        · exact ih3 i him hi2
        · cases hq : lt x (s.getD i x) with
          | false => rfl
          | true =>
            exact absurd (hmono i (l + (r - l) / 2) hi1 (by omega) (by omega) hq) hx
    · rw [if_neg h]
      refine ⟨⟨le_refl l, by omega⟩, ?_, ?_⟩
      · intro i h1 h2
        omega
      · intro i h1 h2
        omega

theorem insertLin_eq_insertAt (lt : α → α → Bool) (x : α) :
    ∀ (s : List α) (p : Nat), p ≤ s.length →
      (∀ i, i < p → lt x (s.getD i x) = false) →
      (∀ i, p ≤ i → i < s.length → lt x (s.getD i x) = true) →
      insertLin lt x s = s.take p ++ x :: s.drop p := by
  intro s
  induction s with
  | nil =>
    intro p hp _ _
    have h0 : p = 0 := Nat.le_zero.mp hp
    subst h0
    rfl
  | cons e es ih =>
    intro p hp hbelow habove
    cases p with
    | zero =>
      have h0 : lt x e = true := habove 0 (Nat.zero_le _) (by simp)
      unfold insertLin
      rw [if_pos h0]
      rfl
    | succ p' =>
      have h0 : lt x e = false := hbelow 0 (Nat.succ_pos _)
      unfold insertLin
      rw [if_neg (by simp [h0])]
      rw [List.take_succ_cons, List.drop_succ_cons]
      show e :: insertLin lt x es = e :: (es.take p' ++ x :: es.drop p')
      congr 1
      refine ih p' (by simpa using hp) ?_ ?_
      · intro i hi
        exact hbelow (i + 1) (by omega)
      · intro i hpi hil
        exact habove (i + 1) (by omega) (by simpa using Nat.succ_lt_succ hil)

/-- Under a monotone probe predicate (as sortedness of the run guarantees),
binary insertion lands at the same place as the linear characterization. -/
theorem binInsertPy_eq_insertLin (lt : α → α → Bool) (x : α) (s : List α)
    (hmono : ∀ i j, i ≤ j → j < s.length →
      lt x (s.getD i x) = true → lt x (s.getD j x) = true) :
    binInsertPy lt s x = insertLin lt x s := by
  obtain ⟨⟨h1, h2⟩, h3, h4⟩ := binProbe_spec lt x s (s.length - 0) 0 s.length rfl
    (Nat.zero_le _) (fun i j hi hij hj hlt => hmono i j hij hj hlt)
  exact (insertLin_eq_insertAt lt x s _ h2
    (fun i hi => h3 i (Nat.zero_le _) hi) (fun i hpi hil => h4 i hpi hil)).symm

theorem insertLin_sorted (key : α → ℝ) (lt : α → α → Bool) (x : α) :
    ∀ s : List α, (∀ a ∈ s, lt x a = true ↔ key x < key a) →
      List.Pairwise (fun a b => key a ≤ key b) s →
      List.Pairwise (fun a b => key a ≤ key b) (insertLin lt x s) := by
  intro s
  induction s with
  | nil =>
    intro _ _
    exact List.pairwise_singleton _ x
  | cons e es ih =>
    intro hx hs
    obtain ⟨he, hes⟩ := List.pairwise_cons.mp hs
    unfold insertLin
    by_cases h : lt x e = true
    · rw [if_pos h]
      refine List.pairwise_cons.mpr ⟨?_, hs⟩
      intro b hb
      have hxe : key x < key e := (hx e (List.mem_cons_self _ _)).mp h
      rcases List.mem_cons.mp hb with rfl | hb
      · exact hxe.le
      · exact hxe.le.trans (he b hb)
    · rw [if_neg h]
      refine List.pairwise_cons.mpr
        ⟨?_, ih (fun a ha => hx a (List.mem_cons_of_mem _ ha)) hes⟩
      intro b hb
      rcases List.mem_cons.mp ((insertLin_perm lt x es).subset hb) with heq | hb
      · rw [heq]
        have hnot : ¬ (key x < key e) := fun hlt =>
          h ((hx e (List.mem_cons_self _ _)).mpr hlt)
        exact not_lt.mp hnot
      · exact he b hb

theorem insertLin_filter (key : α → ℝ) (lt : α → α → Bool) (x : α) (p : α → Bool)
    (hp : ∀ a b, p a = true → p b = true → key a = key b) :
    ∀ s : List α, (∀ a ∈ s, lt x a = true ↔ key x < key a) →
      List.Pairwise (fun a b => key a ≤ key b) s →
      (insertLin lt x s).filter p = s.filter p ++ (if p x then [x] else []) := by
  intro s
  induction s with
  | nil =>
    intro _ _
    by_cases hpx : p x = true <;> simp [insertLin, List.filter_cons, hpx]
  | cons e es ih =>
    intro hx hs
    obtain ⟨he, hes⟩ := List.pairwise_cons.mp hs
    unfold insertLin
    by_cases h : lt x e = true
    · rw [if_pos h]
      have hxe : key x < key e := (hx e (List.mem_cons_self _ _)).mp h
      by_cases hpx : p x = true
      · have hnone : ∀ a ∈ e :: es, ¬ (p a = true) := by
          intro a ha hpa
          have hkey : key a = key x := hp a x hpa hpx
          have hea : key e ≤ key a := by
            rcases List.mem_cons.mp ha with rfl | ha
            · exact le_refl _
            · exact he a ha
          have : key x < key x := by
            calc key x < key e := hxe
              _ ≤ key a := hea
              _ = key x := hkey
          exact absurd this (lt_irrefl _)
        have hfilnil : (e :: es).filter p = [] := List.filter_eq_nil_iff.mpr hnone
        simp [List.filter_cons, hpx, hfilnil]
      · have hpx' : p x = false := Bool.eq_false_iff.mpr hpx
        simp [List.filter_cons, hpx']
    · rw [if_neg h]
      rw [List.filter_cons, List.filter_cons,
        ih (fun a ha => hx a (List.mem_cons_of_mem _ ha)) hes]
      by_cases hpe : p e = true <;> simp [hpe]

theorem binarysortPy_sorted_filter (key : α → ℝ) (lt : α → α → Bool)
    (l₀ : List α)
    (hc : ∀ a b, a ∈ l₀ → b ∈ l₀ → (lt a b = true ↔ key a < key b)) :
    ∀ rest run : List α, (∀ a ∈ run, a ∈ l₀) → (∀ a ∈ rest, a ∈ l₀) →
      List.Pairwise (fun a b => key a ≤ key b) run →
      List.Pairwise (fun a b => key a ≤ key b) (binarysortPy lt run rest)
      ∧ ∀ p : α → Bool, (∀ a b, p a = true → p b = true → key a = key b) →
          (binarysortPy lt run rest).filter p = run.filter p ++ rest.filter p := by
  intro rest
  induction rest with
  | nil =>
    intro run _ _ hrun
    exact ⟨hrun, fun p hp => by simp [binarysortPy]⟩
  | cons x xs ih =>
    intro run hrunmem hrestmem hrun
    have hxmem : x ∈ l₀ := hrestmem x (List.mem_cons_self _ _)
    have hxr : ∀ a ∈ run, lt x a = true ↔ key x < key a :=
      fun a ha => hc x a hxmem (hrunmem a ha)
    have hmono : ∀ i j, i ≤ j → j < run.length →
        lt x (run.getD i x) = true → lt x (run.getD j x) = true := by
      intro i j hij hj hlt
      have hi : i < run.length := Nat.lt_of_le_of_lt hij hj
      rw [getD_eq_get_of_lt run x hi] at hlt
      rw [getD_eq_get_of_lt run x hj]
      have hgi : run.get ⟨i, hi⟩ ∈ run := List.get_mem run i hi
      have hgj : run.get ⟨j, hj⟩ ∈ run := List.get_mem run j hj
      have hkx : key x < key (run.get ⟨i, hi⟩) := (hxr _ hgi).mp hlt
      have hkij : key (run.get ⟨i, hi⟩) ≤ key (run.get ⟨j, hj⟩) := by
        rcases Nat.lt_or_ge i j with hij' | hij'
        · exact List.pairwise_iff_get.mp hrun ⟨i, hi⟩ ⟨j, hj⟩ hij'
        · have : i = j := by omega
          subst this
          exact le_refl _
      exact (hxr _ hgj).mpr (lt_of_lt_of_le hkx hkij)
    have heq : binInsertPy lt run x = insertLin lt x run :=
      binInsertPy_eq_insertLin lt x run hmono
    have hstep : binarysortPy lt run (x :: xs)
        = binarysortPy lt (insertLin lt x run) xs := by
      show binarysortPy lt (binInsertPy lt run x) xs = _
      rw [heq]
    have hrunperm : (insertLin lt x run).Perm (x :: run) := insertLin_perm lt x run
    have hrunmem' : ∀ a ∈ insertLin lt x run, a ∈ l₀ := by
      intro a ha
      rcases List.mem_cons.mp (hrunperm.subset ha) with heq' | ha'
      · rw [heq']; exact hxmem
      · exact hrunmem a ha'
    have hsorted' := insertLin_sorted key lt x run hxr hrun
    obtain ⟨ihs, ihf⟩ := ih (insertLin lt x run) hrunmem'
      (fun a ha => hrestmem a (List.mem_cons_of_mem _ ha)) hsorted'
    constructor
    · rw [hstep]
      exact ihs
    · intro p hp
      rw [hstep, ihf p hp, insertLin_filter key lt x p hp run hxr hrun,
        List.filter_cons]
      by_cases hpx : p x = true <;> simp [hpx]

theorem descRunAux_spec (key : α → ℝ) (lt : α → α → Bool) (l₀ : List α)
    (hc : ∀ a b, a ∈ l₀ → b ∈ l₀ → (lt a b = true ↔ key a < key b)) :
    ∀ (zs : List α) (prev : α), prev ∈ l₀ → (∀ a ∈ zs, a ∈ l₀) →
      (∃ t, (descRunAux lt prev zs).1 = prev :: t)
      ∧ List.Pairwise (fun a b => key b < key a) (descRunAux lt prev zs).1 := by
  intro zs
  induction zs with
  | nil =>
    intro prev _ _
    exact ⟨⟨[], rfl⟩, List.pairwise_singleton _ prev⟩
  | cons z zs ih =>
    intro prev hprev hmem
    have hz : z ∈ l₀ := hmem z (List.mem_cons_self _ _)
    unfold descRunAux
    by_cases h : lt z prev = true
    · rw [if_pos h]
      obtain ⟨⟨t, ht⟩, hpw⟩ := ih z hz (fun a ha => hmem a (List.mem_cons_of_mem _ ha))
      refine ⟨⟨(descRunAux lt z zs).1, rfl⟩, ?_⟩
      refine List.pairwise_cons.mpr ⟨?_, hpw⟩
      intro b hb
      have hzprev : key z < key prev := (hc z prev hz hprev).mp h
      rw [ht] at hb hpw
      rcases List.mem_cons.mp hb with heq | hb'
      · rw [heq]; exact hzprev
      · exact lt_trans ((List.pairwise_cons.mp hpw).1 b hb') hzprev
    · rw [if_neg h]
      exact ⟨⟨[], rfl⟩, List.pairwise_singleton _ prev⟩

theorem ascRunAux_spec (key : α → ℝ) (lt : α → α → Bool) (l₀ : List α)
    (hc : ∀ a b, a ∈ l₀ → b ∈ l₀ → (lt a b = true ↔ key a < key b)) :
    ∀ (zs : List α) (prev : α), prev ∈ l₀ → (∀ a ∈ zs, a ∈ l₀) →
      (∃ t, (ascRunAux lt prev zs).1 = prev :: t)
      ∧ List.Pairwise (fun a b => key a ≤ key b) (ascRunAux lt prev zs).1 := by
  intro zs
  induction zs with
  | nil =>
    intro prev _ _
    exact ⟨⟨[], rfl⟩, List.pairwise_singleton _ prev⟩
  | cons z zs ih =>
    intro prev hprev hmem
    have hz : z ∈ l₀ := hmem z (List.mem_cons_self _ _)
    unfold ascRunAux
    by_cases h : lt z prev = true
    · rw [if_pos h]
      exact ⟨⟨[], rfl⟩, List.pairwise_singleton _ prev⟩
    · rw [if_neg h]
      obtain ⟨⟨t, ht⟩, hpw⟩ := ih z hz (fun a ha => hmem a (List.mem_cons_of_mem _ ha))
      refine ⟨⟨(ascRunAux lt z zs).1, rfl⟩, ?_⟩
      refine List.pairwise_cons.mpr ⟨?_, hpw⟩
      intro b hb
      have hprevz : key prev ≤ key z :=
        not_lt.mp (fun hlt => h ((hc z prev hz hprev).mpr hlt))
      rw [ht] at hb hpw
      rcases List.mem_cons.mp hb with heq | hb'
      · rw [heq]; exact hprevz
      · exact hprevz.trans ((List.pairwise_cons.mp hpw).1 b hb')

theorem strict_desc_filter_le_one (key : α → ℝ) (p : α → Bool)
    (hp : ∀ a b, p a = true → p b = true → key a = key b) (m : List α)
    (hm : List.Pairwise (fun a b => key b < key a) m) :
    (m.filter p).length ≤ 1 := by
  cases hf : m.filter p with
  | nil => simp
  | cons a as =>
    cases as with
    | nil => simp
    | cons b bs =>
      have hsub : List.Pairwise (fun x y => key y < key x) (m.filter p) :=
        List.Pairwise.sublist (List.filter_sublist m) hm
      rw [hf] at hsub
      have hab : key b < key a := (List.pairwise_cons.mp hsub).1 b (List.mem_cons_self _ _)
      have hpa : p a = true := by
        have : a ∈ m.filter p := by rw [hf]; exact List.mem_cons_self _ _
        exact (List.mem_filter.mp this).2
      have hpb : p b = true := by
        have : b ∈ m.filter p := by
          rw [hf]
          exact List.mem_cons_of_mem _ (List.mem_cons_self _ _)
        exact (List.mem_filter.mp this).2
      rw [hp a b hpa hpb] at hab
      exact absurd hab (lt_irrefl _)

theorem countRunPy_spec (key : α → ℝ) (lt : α → α → Bool) (l : List α)
    (hc : ∀ a b, a ∈ l → b ∈ l → (lt a b = true ↔ key a < key b)) :
    ∃ pre : List α, pre ++ (countRunPy lt l).2 = l
      ∧ (countRunPy lt l).1.Perm pre
      ∧ List.Pairwise (fun a b => key a ≤ key b) (countRunPy lt l).1
      ∧ ∀ p : α → Bool, (∀ a b, p a = true → p b = true → key a = key b) →
          (countRunPy lt l).1.filter p = pre.filter p := by
  match l with
  | [] => exact ⟨[], rfl, List.Perm.refl _, List.Pairwise.nil, fun _ _ => rfl⟩
  | [x] =>
    exact ⟨[x], rfl, List.Perm.refl _, List.pairwise_singleton _ x, fun _ _ => rfl⟩
  | x :: y :: rest =>
    have hx : x ∈ x :: y :: rest := List.mem_cons_self _ _
    have hy : y ∈ x :: y :: rest := List.mem_cons_of_mem _ (List.mem_cons_self _ _)
    have hrestmem : ∀ a ∈ rest, a ∈ x :: y :: rest :=
      fun a ha => List.mem_cons_of_mem _ (List.mem_cons_of_mem _ ha)
    have hred : countRunPy lt (x :: y :: rest)
        = if lt y x = true then
            (((descRunAux lt y rest).1.cons x).reverse, (descRunAux lt y rest).2)
          else ((ascRunAux lt y rest).1.cons x, (ascRunAux lt y rest).2) := rfl
    rw [hred]
    by_cases h : lt y x = true
    · rw [if_pos h]
      obtain ⟨⟨t, ht⟩, hpw⟩ := descRunAux_spec key lt (x :: y :: rest) hc rest y hy hrestmem
      have hdmem : ∀ a ∈ (descRunAux lt y rest).1, a ∈ x :: y :: rest := by
        intro a ha
        have : a ∈ (descRunAux lt y rest).1 ++ (descRunAux lt y rest).2 :=
          List.mem_append_left _ ha
        rw [descRunAux_concat] at this
        exact List.mem_cons_of_mem _ this
      have hstrict : List.Pairwise (fun a b => key b < key a)
          ((descRunAux lt y rest).1.cons x) := by
        refine List.pairwise_cons.mpr ⟨?_, hpw⟩
        intro b hb
        have hyx : key y < key x := (hc y x hy hx).mp h
        rw [ht] at hb hpw
        rcases List.mem_cons.mp hb with heq | hb'
        · rw [heq]; exact hyx
        · exact lt_trans ((List.pairwise_cons.mp hpw).1 b hb') hyx
      refine ⟨(descRunAux lt y rest).1.cons x, ?_, List.reverse_perm _, ?_, ?_⟩
      · show x :: ((descRunAux lt y rest).1 ++ (descRunAux lt y rest).2) = x :: y :: rest
        rw [descRunAux_concat]
      · rw [List.pairwise_reverse]
        exact hstrict.imp le_of_lt
      · intro p hp
        rw [List.filter_reverse]
        have hle1 := strict_desc_filter_le_one key p hp _ hstrict
        cases hf : ((descRunAux lt y rest).1.cons x).filter p with
        | nil => rfl
        | cons a as =>
          rw [hf] at hle1
          cases as with
          | nil => rfl
          | cons b bs => simp at hle1
    · rw [if_neg h]
      obtain ⟨⟨t, ht⟩, hpw⟩ := ascRunAux_spec key lt (x :: y :: rest) hc rest y hy hrestmem
      refine ⟨(ascRunAux lt y rest).1.cons x, ?_, List.Perm.refl _, ?_, fun _ _ => rfl⟩
      · show x :: ((ascRunAux lt y rest).1 ++ (ascRunAux lt y rest).2) = x :: y :: rest
        rw [ascRunAux_concat]
      · refine List.pairwise_cons.mpr ⟨?_, hpw⟩
        intro b hb
        have hxy : key x ≤ key y :=
          not_lt.mp (fun hlt => h ((hc y x hy hx).mpr hlt))
        rw [ht] at hb hpw
        rcases List.mem_cons.mp hb with heq | hb'
        · rw [heq]; exact hxy
        · exact hxy.trans ((List.pairwise_cons.mp hpw).1 b hb')

theorem pysortAsc_props (key : α → ℝ) (lt : α → α → Bool) (l : List α)
    (hc : ∀ a b, a ∈ l → b ∈ l → (lt a b = true ↔ key a < key b)) :
    List.Pairwise (fun a b => key a ≤ key b) (pysortAsc lt l)
    ∧ ∀ p : α → Bool, (∀ a b, p a = true → p b = true → key a = key b) →
        (pysortAsc lt l).filter p = l.filter p := by
  obtain ⟨pre, hconcat, hperm, hsorted, hfil⟩ := countRunPy_spec key lt l hc
  have hrunmem : ∀ a ∈ (countRunPy lt l).1, a ∈ l := by
    intro a ha
    have : a ∈ pre := hperm.subset ha
    rw [← hconcat]
    exact List.mem_append_left _ this
  have hrestmem : ∀ a ∈ (countRunPy lt l).2, a ∈ l := by
    intro a ha
    rw [← hconcat]
    exact List.mem_append_right _ ha
  obtain ⟨hs, hf⟩ := binarysortPy_sorted_filter key lt l hc (countRunPy lt l).2
    (countRunPy lt l).1 hrunmem hrestmem hsorted
  refine ⟨hs, ?_⟩
  intro p hp
  show (binarysortPy lt (countRunPy lt l).1 (countRunPy lt l).2).filter p = l.filter p
  rw [hf p hp, hfil p hp, ← List.filter_append, hconcat]

/-- Under a NaN-free (consistent) comparator, the modelled Python sort with
reverse=True is a permutation, descending in the key, and stable: any class
of mutually tied elements filters out in input order. -/
theorem pysortDesc_props (key : α → ℝ) (lt : α → α → Bool) (l : List α)
    (hc : ∀ a b, a ∈ l → b ∈ l → (lt a b = true ↔ key a < key b)) :
    (pysortDesc lt l).Perm l
    ∧ List.Pairwise (fun a b => key b ≤ key a) (pysortDesc lt l)
    ∧ ∀ p : α → Bool, (∀ a b, p a = true → p b = true → key a = key b) →
        (pysortDesc lt l).filter p = l.filter p := by
  have hc' : ∀ a b, a ∈ l.reverse → b ∈ l.reverse → (lt a b = true ↔ key a < key b) :=
    fun a b ha hb => hc a b (List.mem_reverse.mp ha) (List.mem_reverse.mp hb)
  obtain ⟨hs, hf⟩ := pysortAsc_props key lt l.reverse hc'
  refine ⟨pysortDesc_perm lt l, ?_, ?_⟩
  · unfold pysortDesc
    rw [List.pairwise_reverse]
    exact hs
  · intro p hp
    unfold pysortDesc
    rw [List.filter_reverse, hf p hp, List.filter_reverse, List.reverse_reverse]

/-- Cosine similarity of a stored document to the query, as a real number;
meaningful (and used in the theorems) only when neither norm is zero, the
case in which the program's float value is not NaN. -/
noncomputable def docSim (q : List ℚ) (d : StoredDoc) : ℝ :=
  cosSim q (emb d)

/-- On NaN-free pairs the comparator docLT is the strict real order of the
cosine similarities. -/
theorem docLT_iff (q : List ℚ) (a b : StoredDoc)
    (hq : sumSq q ≠ 0) (ha : sumSq (emb a) ≠ 0) (hb : sumSq (emb b) ≠ 0) :
    docLT q a b = true ↔ docSim q a < docSim q b := by
  unfold docLT simLT
  have hna : nanSim q (emb a) = false := by
    simp [nanSim, hq, ha]
  have hnb : nanSim q (emb b) = false := by
    simp [nanSim, hq, hb]
  rw [hna, hnb]
  rw [if_neg (fun h => Bool.false_ne_true (by simpa using h))]
  rw [Bool.not_eq_true']
  constructor
  · intro h
    have := (not_iff_not.mpr (simLE_iff q (emb b) (emb a))).mp (by simp [h])
    exact not_le.mp this
  · intro h
    have : ¬ (simLE q (emb b) (emb a) = true) :=
      fun hle => absurd ((simLE_iff q (emb b) (emb a)).mp hle) (not_le.mpr h)
    exact Bool.eq_false_iff.mpr this

theorem all_embOK_of (q : List ℚ) (docs : List StoredDoc)
    (hemb : ∀ d ∈ docs, d.embedding.isSome = true ∧ (emb d).length = q.length) :
    docs.all (embOK q) = true := by
  rw [List.all_eq_true]
  intro d hd
  obtain ⟨h1, h2⟩ := hemb d hd
  unfold embOK
  rw [Bool.and_eq_true, decide_eq_true_eq]
  exact ⟨h1, h2⟩

theorem search_in_file_eq_sort (q : List ℚ) (docs : List StoredDoc)
    (hemb : ∀ d ∈ docs, d.embedding.isSome = true ∧ (emb d).length = q.length) :
    DataStaxVectorDB.search_in_file (some docs) q docs.length
      = pysortDesc (docLT q) docs := by
  have hred : DataStaxVectorDB.search_in_file (some docs) q docs.length
      = if docs.all (embOK q) = true then
          List.take docs.length (pysortDesc (docLT q) docs)
        else [] := rfl
  rw [hred, if_pos (all_embOK_of q docs hemb)]
  conv_lhs => rw [← pysortDesc_length (docLT q) docs]
  exact List.take_length _

theorem qdrant_search_eq_sort (q : List ℚ) (docs : List StoredDoc)
    (hne : docs ≠ [])
    (hemb : ∀ d ∈ docs, d.embedding.isSome = true ∧ (emb d).length = q.length) :
    QdrantVectorDB.search_in_file (some docs) q docs.length
      = pysortDesc (docLT q) docs := by
  have hie : ¬ (docs.isEmpty = true) := by
    cases docs with
    | nil => exact absurd rfl hne
    | cons x xs => simp
  have hred : QdrantVectorDB.search_in_file (some docs) q docs.length
      = if docs.isEmpty = true then []
        else
          if (docs.filter (fun d => d.embedding.isSome)).all (embOK q) = true then
            List.take docs.length
              (pysortDesc (docLT q) (docs.filter (fun d => d.embedding.isSome)))
          else [] := rfl
  rw [hred, if_neg hie]
  have hfil : docs.filter (fun d => d.embedding.isSome) = docs :=
    List.filter_eq_self.mpr (fun d hd => (hemb d hd).1)
  rw [hfil, if_pos (all_embOK_of q docs hemb)]
  conv_lhs => rw [← pysortDesc_length (docLT q) docs]
  exact List.take_length _

/-- C1 counterexample: for the store with embeddings [-1,0], [0,0], [1,0]
and query [1,0] — a non-empty store of embedded documents of the query's
dimension — the zero-norm document's similarity is NaN (np.float64 0.0/0.0):
every sort comparison against it is false, so the whole reversed list counts
as one ascending run and both fallback searches return the documents in
stored order, placing similarity -1 before similarity +1; the result is not
ordered by descending cosine similarity. -/
theorem C1_counterexample :
    DataStaxVectorDB.search_in_file
        (some [⟨"a", some [-1, 0], none⟩, ⟨"z", some [0, 0], none⟩,
               ⟨"b", some [1, 0], none⟩]) [1, 0] 3
      = [⟨"a", some [-1, 0], none⟩, ⟨"z", some [0, 0], none⟩,
         ⟨"b", some [1, 0], none⟩]
    ∧ QdrantVectorDB.search_in_file
        (some [⟨"a", some [-1, 0], none⟩, ⟨"z", some [0, 0], none⟩,
               ⟨"b", some [1, 0], none⟩]) [1, 0] 3
      = [⟨"a", some [-1, 0], none⟩, ⟨"z", some [0, 0], none⟩,
         ⟨"b", some [1, 0], none⟩]
    ∧ docSim [1, 0] ⟨"a", some [-1, 0], none⟩
        < docSim [1, 0] ⟨"b", some [1, 0], none⟩
    ∧ ¬ List.Pairwise (fun x y => docSim [1, 0] y ≤ docSim [1, 0] x)
        [⟨"a", some [-1, 0], none⟩, ⟨"z", some [0, 0], none⟩,
         ⟨"b", some [1, 0], none⟩] := by
  have h00 : sumSq ([0, 0] : List ℚ) = 0 := by norm_num [sumSq, dotl]
  have hq1 : sumSq ([1, 0] : List ℚ) = 1 := by norm_num [sumSq, dotl]
  have ha1 : sumSq ([-1, 0] : List ℚ) = 1 := by norm_num [sumSq, dotl]
  have hda : dotl ([1, 0] : List ℚ) [-1, 0] = -1 := by norm_num [dotl]
  have hdb : dotl ([1, 0] : List ℚ) [1, 0] = 1 := by norm_num [dotl]
  have hlt1 : docLT [1, 0] ⟨"z", some [0, 0], none⟩ ⟨"b", some [1, 0], none⟩ = false := by
    simp [docLT, simLT, emb, nanSim, h00]
  have hlt2 : docLT [1, 0] ⟨"a", some [-1, 0], none⟩ ⟨"z", some [0, 0], none⟩ = false := by
    simp [docLT, simLT, emb, nanSim, h00]
  have hasc : ascRunAux (docLT [1, 0]) ⟨"z", some [0, 0], none⟩
      [⟨"a", some [-1, 0], none⟩]
      = ([⟨"z", some [0, 0], none⟩, ⟨"a", some [-1, 0], none⟩], []) := by
    unfold ascRunAux
    rw [if_neg (by rw [hlt2]; exact Bool.false_ne_true)]
    rfl
  have hsort : pysortDesc (docLT [1, 0])
      [⟨"a", some [-1, 0], none⟩, ⟨"z", some [0, 0], none⟩, ⟨"b", some [1, 0], none⟩]
      = [⟨"a", some [-1, 0], none⟩, ⟨"z", some [0, 0], none⟩, ⟨"b", some [1, 0], none⟩] := by
    have hred : countRunPy (docLT [1, 0])
        [⟨"b", some [1, 0], none⟩, ⟨"z", some [0, 0], none⟩, ⟨"a", some [-1, 0], none⟩]
        = if docLT [1, 0] ⟨"z", some [0, 0], none⟩ ⟨"b", some [1, 0], none⟩ = true then
            (((descRunAux (docLT [1, 0]) ⟨"z", some [0, 0], none⟩
                [⟨"a", some [-1, 0], none⟩]).1.cons ⟨"b", some [1, 0], none⟩).reverse,
              (descRunAux (docLT [1, 0]) ⟨"z", some [0, 0], none⟩
                [⟨"a", some [-1, 0], none⟩]).2)
          else ((ascRunAux (docLT [1, 0]) ⟨"z", some [0, 0], none⟩
                [⟨"a", some [-1, 0], none⟩]).1.cons ⟨"b", some [1, 0], none⟩,
              (ascRunAux (docLT [1, 0]) ⟨"z", some [0, 0], none⟩
                [⟨"a", some [-1, 0], none⟩]).2) := rfl
    unfold pysortDesc pysortAsc
    show (binarysortPy (docLT [1, 0])
        (countRunPy (docLT [1, 0])
          [⟨"b", some [1, 0], none⟩, ⟨"z", some [0, 0], none⟩, ⟨"a", some [-1, 0], none⟩]).1
        (countRunPy (docLT [1, 0])
          [⟨"b", some [1, 0], none⟩, ⟨"z", some [0, 0], none⟩, ⟨"a", some [-1, 0], none⟩]).2).reverse
      = [⟨"a", some [-1, 0], none⟩, ⟨"z", some [0, 0], none⟩, ⟨"b", some [1, 0], none⟩]
    rw [hred, if_neg (by rw [hlt1]; exact Bool.false_ne_true), hasc]
    rfl
  have hsa : docSim [1, 0] (⟨"a", some [-1, 0], none⟩ : StoredDoc) = -1 := by
    show cosSim [1, 0] [-1, 0] = -1
    unfold cosSim normE
    rw [hq1, ha1, hda]
    push_cast
    rw [Real.sqrt_one]
    norm_num
  have hsb : docSim [1, 0] (⟨"b", some [1, 0], none⟩ : StoredDoc) = 1 := by
    show cosSim [1, 0] [1, 0] = 1
    unfold cosSim normE
    rw [hq1, hdb]
    push_cast
    rw [Real.sqrt_one]
    norm_num
  refine ⟨?_, ?_, ?_, ?_⟩
  · have hred : DataStaxVectorDB.search_in_file
        (some [⟨"a", some [-1, 0], none⟩, ⟨"z", some [0, 0], none⟩,
               ⟨"b", some [1, 0], none⟩]) [1, 0] 3
        = if ([⟨"a", some [-1, 0], none⟩, ⟨"z", some [0, 0], none⟩,
               ⟨"b", some [1, 0], none⟩] : List StoredDoc).all (embOK [1, 0]) = true then
            List.take 3 (pysortDesc (docLT [1, 0])
              [⟨"a", some [-1, 0], none⟩, ⟨"z", some [0, 0], none⟩, ⟨"b", some [1, 0], none⟩])
          else [] := rfl
    rw [hred, if_pos (by decide), hsort]
    rfl
  · have hred : QdrantVectorDB.search_in_file
        (some [⟨"a", some [-1, 0], none⟩, ⟨"z", some [0, 0], none⟩,
               ⟨"b", some [1, 0], none⟩]) [1, 0] 3
        = if ([⟨"a", some [-1, 0], none⟩, ⟨"z", some [0, 0], none⟩,
               ⟨"b", some [1, 0], none⟩] : List StoredDoc).isEmpty = true then []
          else
            if (([⟨"a", some [-1, 0], none⟩, ⟨"z", some [0, 0], none⟩,
                  ⟨"b", some [1, 0], none⟩] : List StoredDoc).filter
                (fun d => d.embedding.isSome)).all (embOK [1, 0]) = true then
              List.take 3 (pysortDesc (docLT [1, 0])
                (([⟨"a", some [-1, 0], none⟩, ⟨"z", some [0, 0], none⟩,
                   ⟨"b", some [1, 0], none⟩] : List StoredDoc).filter
                  (fun d => d.embedding.isSome)))
            else [] := rfl
    rw [hred, if_neg (by decide)]
    have hfil : ([⟨"a", some [-1, 0], none⟩, ⟨"z", some [0, 0], none⟩,
        ⟨"b", some [1, 0], none⟩] : List StoredDoc).filter (fun d => d.embedding.isSome)
        = [⟨"a", some [-1, 0], none⟩, ⟨"z", some [0, 0], none⟩, ⟨"b", some [1, 0], none⟩] := by decide
    rw [hfil, if_pos (by decide), hsort]
    rfl
  · rw [hsa, hsb]
    norm_num
  · intro hpw
    have h1 := (List.pairwise_cons.mp hpw).1 ⟨"b", some [1, 0], none⟩
      (List.mem_cons_of_mem _ (List.mem_cons_self _ _))
    rw [hsa, hsb] at h1
    norm_num at h1

/-- C1 (amended): for a non-empty store in which every document carries an
embedding of the query's dimension, and in which additionally the query
vector and every stored embedding are nonzero (nonzero Euclidean norm —
otherwise the program's similarity is the float NaN 0.0/0.0 and Python's
sort does not order the NaN-keyed results), both file-fallback searches
(DataStax and Qdrant variants) return exactly the stored documents
reordered (a permutation), sorted by descending cosine similarity to the
query — dot product over the product of Euclidean norms — with
equal-similarity documents kept in their stored order (any set of mutually
tied documents filters out of the result in exactly their stored order). -/
theorem C1_file_search_ranking (docs : List StoredDoc) (q : List ℚ)
    (hne : docs ≠ [])
    (hemb : ∀ d ∈ docs, d.embedding.isSome = true ∧ (emb d).length = q.length)
    (hq : sumSq q ≠ 0)
    (hz : ∀ d ∈ docs, sumSq (emb d) ≠ 0) :
    (DataStaxVectorDB.search_in_file (some docs) q docs.length
        = QdrantVectorDB.search_in_file (some docs) q docs.length)
    ∧ (DataStaxVectorDB.search_in_file (some docs) q docs.length).Perm docs
    ∧ List.Pairwise (fun x y => docSim q y ≤ docSim q x)
        (DataStaxVectorDB.search_in_file (some docs) q docs.length)
    ∧ ∀ p : StoredDoc → Bool,
        (∀ x y, p x = true → p y = true → docSim q x = docSim q y) →
        (DataStaxVectorDB.search_in_file (some docs) q docs.length).filter p
          = docs.filter p := by
  have hds := search_in_file_eq_sort q docs hemb
  have hqd := qdrant_search_eq_sort q docs hne hemb
  have hc : ∀ a b, a ∈ docs → b ∈ docs →
      (docLT q a b = true ↔ docSim q a < docSim q b) :=
    fun a b ha hb => docLT_iff q a b hq (hz a ha) (hz b hb)
  obtain ⟨hperm, hpw, hfil⟩ := pysortDesc_props (docSim q) (docLT q) docs hc
  refine ⟨by rw [hds, hqd], ?_, ?_, ?_⟩
  · rw [hds]
    exact hperm
  · rw [hds]
    exact hpw
  · intro p hp
    rw [hds]
    exact hfil p hp

/-- Witness for C1_file_search_ranking on a one-document store with a
nonzero query and a nonzero stored embedding. -/
theorem C1_file_search_ranking_witness :
    (([⟨"s1", some [1, 0], none⟩] : List StoredDoc) ≠ [])
    ∧ (∀ d ∈ ([⟨"s1", some [1, 0], none⟩] : List StoredDoc),
        d.embedding.isSome = true ∧ (emb d).length = ([1, 0] : List ℚ).length)
    ∧ sumSq ([1, 0] : List ℚ) ≠ 0
    ∧ (∀ d ∈ ([⟨"s1", some [1, 0], none⟩] : List StoredDoc), sumSq (emb d) ≠ 0)
    ∧ ((DataStaxVectorDB.search_in_file (some [⟨"s1", some [1, 0], none⟩]) [1, 0]
          ([⟨"s1", some [1, 0], none⟩] : List StoredDoc).length
        = QdrantVectorDB.search_in_file (some [⟨"s1", some [1, 0], none⟩]) [1, 0]
          ([⟨"s1", some [1, 0], none⟩] : List StoredDoc).length)
      ∧ (DataStaxVectorDB.search_in_file (some [⟨"s1", some [1, 0], none⟩]) [1, 0]
          ([⟨"s1", some [1, 0], none⟩] : List StoredDoc).length).Perm
            [⟨"s1", some [1, 0], none⟩]
      ∧ List.Pairwise (fun x y => docSim [1, 0] y ≤ docSim [1, 0] x)
          (DataStaxVectorDB.search_in_file (some [⟨"s1", some [1, 0], none⟩]) [1, 0]
            ([⟨"s1", some [1, 0], none⟩] : List StoredDoc).length)
      ∧ ∀ p : StoredDoc → Bool,
          (∀ x y, p x = true → p y = true → docSim [1, 0] x = docSim [1, 0] y) →
          (DataStaxVectorDB.search_in_file (some [⟨"s1", some [1, 0], none⟩]) [1, 0]
            ([⟨"s1", some [1, 0], none⟩] : List StoredDoc).length).filter p
            = ([⟨"s1", some [1, 0], none⟩] : List StoredDoc).filter p) := by
  have hq : sumSq ([1, 0] : List ℚ) ≠ 0 := by norm_num [sumSq, dotl]
  have hz : ∀ d ∈ ([⟨"s1", some [1, 0], none⟩] : List StoredDoc),
      sumSq (emb d) ≠ 0 := by
    intro d hd
    rw [List.mem_singleton.mp hd]
    show sumSq (emb ⟨"s1", some [1, 0], none⟩) ≠ 0
    norm_num [emb, sumSq, dotl]
  exact ⟨by decide, by decide, hq, hz,
    C1_file_search_ranking [⟨"s1", some [1, 0], none⟩] [1, 0]
      (by decide) (by decide) hq hz⟩

/-- C4 counterexample: inserting the single document with id "s1" and
embedding [1, 0] through the file path and searching [1, 0] with limit 1
returns the stored document itself, which carries no score field at all —
not a result with a score field equal to 1.0 as the claim demands. -/
theorem C4_counterexample :
    QdrantVectorDB.search_in_file
        (QdrantVectorDB.insert_to_file [⟨"s1", some [1, 0], none⟩]) [1, 0] 1
      = [⟨"s1", some [1, 0], none⟩]
    ∧ ∀ r ∈ QdrantVectorDB.search_in_file
        (QdrantVectorDB.insert_to_file [⟨"s1", some [1, 0], none⟩]) [1, 0] 1,
        r.score ≠ some 1 := by
  decide

/-- C4 (amended): with remote configuration absent, insert and search via
the file path succeed: inserting the single document with id "s1" and
embedding [1, 0] and then searching [1, 0] with limit 1 returns exactly that
stored document (carrying id "s1") in both fallback implementations, and its
cosine similarity to the query is 1; but the file path returns the stored
record verbatim and attaches no score field (score stays absent), so the
result shape differs from the remote path, which adds a score key. -/
theorem C4_fallback_shape :
    (QdrantVectorDB.insert_to_file [⟨"s1", some [1, 0], none⟩]
        = some [⟨"s1", some [1, 0], none⟩])
    ∧ QdrantVectorDB.search_in_file
        (QdrantVectorDB.insert_to_file [⟨"s1", some [1, 0], none⟩]) [1, 0] 1
      = [⟨"s1", some [1, 0], none⟩]
    ∧ DataStaxVectorDB.search_in_file
        (DataStaxVectorDB.insert_to_file [⟨"s1", some [1, 0], none⟩]) [1, 0] 1
      = [⟨"s1", some [1, 0], none⟩]
    ∧ (∀ r ∈ QdrantVectorDB.search_in_file
        (QdrantVectorDB.insert_to_file [⟨"s1", some [1, 0], none⟩]) [1, 0] 1,
        r.id = "s1" ∧ r.score = none)
    ∧ cosSim [1, 0] [1, 0] = 1 := by
  refine ⟨by decide, by decide, by decide, by decide, ?_⟩
  have h1 : sumSq ([1, 0] : List ℚ) = 1 := by norm_num [sumSq, dotl]
  have h2 : dotl ([1, 0] : List ℚ) ([1, 0] : List ℚ) = 1 := by norm_num [dotl]
  unfold cosSim normE
  rw [h1, h2]
  push_cast
  rw [Real.sqrt_one]
  norm_num

theorem ds_search_length_le (store : Option (List StoredDoc)) (q : List ℚ) (k : Nat) :
    (DataStaxVectorDB.search_in_file store q k).length ≤ k := by
  match store with
  | none => exact Nat.zero_le k
  | some docs =>
    show (if docs.all (embOK q) = true then
        List.take k (pysortDesc (docLT q) docs) else []).length ≤ k
    by_cases h : docs.all (embOK q) = true
    · rw [if_pos h, List.length_take]
      exact Nat.min_le_left _ _
    · rw [if_neg h]
      exact Nat.zero_le k

theorem qdrant_search_length_le (store : Option (List StoredDoc)) (q : List ℚ) (k : Nat) :
    (QdrantVectorDB.search_in_file store q k).length ≤ k := by
  match store with
  | none => exact Nat.zero_le k
  | some docs =>
    show (if docs.isEmpty = true then []
        else
          if (docs.filter (fun d => d.embedding.isSome)).all (embOK q) = true then
            List.take k (pysortDesc (docLT q) (docs.filter (fun d => d.embedding.isSome)))
          else []).length ≤ k
    by_cases he : docs.isEmpty = true
    · rw [if_pos he]
      exact Nat.zero_le k
    · rw [if_neg he]
      by_cases h : (docs.filter (fun d => d.embedding.isSome)).all (embOK q) = true
      · rw [if_pos h, List.length_take]
        exact Nat.min_le_left _ _
      · rw [if_neg h]
        exact Nat.zero_le k

/-- C5: both file-fallback searches return at most limit results on any
store; and on a store of m well-formed documents (every document carrying an
embedding of the query's dimension) with m < limit, they return exactly m
results. -/
theorem C5_limit_truncation (store : Option (List StoredDoc)) (q : List ℚ) (k : Nat) :
    ((DataStaxVectorDB.search_in_file store q k).length ≤ k
      ∧ (QdrantVectorDB.search_in_file store q k).length ≤ k)
    ∧ ∀ docs : List StoredDoc, store = some docs →
        (∀ d ∈ docs, d.embedding.isSome = true ∧ (emb d).length = q.length) →
        docs.length < k →
        (DataStaxVectorDB.search_in_file store q k).length = docs.length
        ∧ (QdrantVectorDB.search_in_file store q k).length = docs.length := by
  refine ⟨⟨ds_search_length_le store q k, qdrant_search_length_le store q k⟩, ?_⟩
  rintro docs rfl hemb hk
  constructor
  · have hred : DataStaxVectorDB.search_in_file (some docs) q k
        = if docs.all (embOK q) = true then
            List.take k (pysortDesc (docLT q) docs) else [] := rfl
    rw [hred, if_pos (all_embOK_of q docs hemb), List.length_take,
      pysortDesc_length]
    exact Nat.min_eq_right (Nat.le_of_lt hk)
  · cases hdocs : docs with
    | nil => rfl
    | cons x xs =>
      rw [← hdocs]
      have hie : ¬ (docs.isEmpty = true) := by rw [hdocs]; simp
      have hred : QdrantVectorDB.search_in_file (some docs) q k
          = if docs.isEmpty = true then []
            else
              if (docs.filter (fun d => d.embedding.isSome)).all (embOK q) = true then
                List.take k
                  (pysortDesc (docLT q) (docs.filter (fun d => d.embedding.isSome)))
              else [] := rfl
      have hfil : docs.filter (fun d => d.embedding.isSome) = docs :=
        List.filter_eq_self.mpr (fun d hd => (hemb d hd).1)
      rw [hred, if_neg hie, hfil, if_pos (all_embOK_of q docs hemb),
        List.length_take, pysortDesc_length]
      exact Nat.min_eq_right (Nat.le_of_lt hk)

/-- Witness for C5_limit_truncation: one stored document, limit 3; the
store hypotheses are discharged at this concrete input. -/
theorem C5_limit_truncation_witness :
    ((DataStaxVectorDB.search_in_file (some [⟨"s1", some [1, 0], none⟩]) [1, 0] 3).length ≤ 3
      ∧ (QdrantVectorDB.search_in_file (some [⟨"s1", some [1, 0], none⟩]) [1, 0] 3).length ≤ 3)
    ∧ (([⟨"s1", some [1, 0], none⟩] : List StoredDoc).length < 3
      ∧ (DataStaxVectorDB.search_in_file (some [⟨"s1", some [1, 0], none⟩]) [1, 0] 3).length
          = ([⟨"s1", some [1, 0], none⟩] : List StoredDoc).length
      ∧ (QdrantVectorDB.search_in_file (some [⟨"s1", some [1, 0], none⟩]) [1, 0] 3).length
          = ([⟨"s1", some [1, 0], none⟩] : List StoredDoc).length) :=
  ⟨(C5_limit_truncation (some [⟨"s1", some [1, 0], none⟩]) [1, 0] 3).1,
    by decide,
    ((C5_limit_truncation (some [⟨"s1", some [1, 0], none⟩]) [1, 0] 3).2
      [⟨"s1", some [1, 0], none⟩] rfl (by decide) (by decide)).1,
    ((C5_limit_truncation (some [⟨"s1", some [1, 0], none⟩]) [1, 0] 3).2
      [⟨"s1", some [1, 0], none⟩] rfl (by decide) (by decide)).2⟩

/-- C6: searching a missing fallback file or an empty store returns the
empty list in both fallback implementations (exceptions are caught and the
empty cases are handled), for every query vector and limit. -/
theorem C6_empty_store (q : List ℚ) (k : Nat) :
    DataStaxVectorDB.search_in_file none q k = []
    ∧ DataStaxVectorDB.search_in_file (some []) q k = []
    ∧ QdrantVectorDB.search_in_file none q k = []
    ∧ QdrantVectorDB.search_in_file (some []) q k = [] := by
  refine ⟨rfl, ?_, rfl, rfl⟩
  show (if ([] : List StoredDoc).all (embOK q) = true then
      List.take k (pysortDesc (docLT q) []) else []) = []
  rw [if_pos (show ([] : List StoredDoc).all (embOK q) = true from rfl)]
  show List.take k ([] : List StoredDoc) = []
  exact List.take_nil

namespace DataStaxVectorDB

/-- Model of DataStaxVectorDB.insert_documents (src/vector_db.py lines
106-149).  The remote session calls are network I/O outside the shallow
embedding, so the try-block's outcome is a parameter: ok when every prepared
insert succeeded, error carrying the caught exception's message.  The value
returned is the resulting fallback-store contents wrapped in Except, making
the raise/no-raise behavior at the boundary explicit: on the file path the
file is overwritten; on a remote success the file is untouched; on a remote
failure the handler falls back to insert_to_file. -/
def insert_documents (useFileStorage : Bool) (remote : Except String Unit)
    (store : Option (List StoredDoc)) (docs : List StoredDoc) :
    Except String (Option (List StoredDoc)) :=
  if useFileStorage then Except.ok (insert_to_file docs)
  else
    match remote with
    | Except.ok _ => Except.ok store
    | Except.error _ => Except.ok (insert_to_file docs)

/-- Model of DataStaxVectorDB.search_similar (src/vector_db.py lines
162-187).  The try block is a placeholder that builds a query string,
performs no request and returns []; the outcome parameter still represents
whether the block raised, and the handler falls back to search_in_file. -/
def search_similar (useFileStorage : Bool) (remote : Except String Unit)
    (store : Option (List StoredDoc)) (q : List ℚ) (limit : Nat) :
    Except String (List StoredDoc) :=
  if useFileStorage then Except.ok (search_in_file store q limit)
  else
    match remote with
    | Except.ok _ => Except.ok []
    | Except.error _ => Except.ok (search_in_file store q limit)

end DataStaxVectorDB

namespace QdrantVectorDB

/-- Model of QdrantVectorDB.insert_documents (src/vector_db_qdrant.py lines
73-126), with the batched HTTP upsert represented by the remote outcome
parameter; the except handler falls back to insert_to_file. -/
def insert_documents (useFileStorage : Bool) (remote : Except String Unit)
    (store : Option (List StoredDoc)) (docs : List StoredDoc) :
    Except String (Option (List StoredDoc)) :=
  if useFileStorage then Except.ok (insert_to_file docs)
  else
    match remote with
    | Except.ok _ => Except.ok store
    | Except.error _ => Except.ok (insert_to_file docs)

/-- Model of QdrantVectorDB.search_similar (src/vector_db_qdrant.py lines
139-194): the HTTP search is the remote outcome parameter (ok carries the
converted result documents); a raised error anywhere in the try block is
caught and the handler falls back to search_in_file. -/
def search_similar (useFileStorage : Bool) (remote : Except String (List StoredDoc))
    (store : Option (List StoredDoc)) (q : List ℚ) (limit : Nat) :
    Except String (List StoredDoc) :=
  if useFileStorage then Except.ok (search_in_file store q limit)
  else
    match remote with
    | Except.ok rs => Except.ok rs
    | Except.error _ => Except.ok (search_in_file store q limit)

end QdrantVectorDB

/-- C9: no remote failure escapes the backend boundary — every call to the
modelled insert_documents and search_similar returns ok (never an error),
and whenever the remote outcome is a failure the returned value is exactly
the file-fallback path's result (insert_to_file respectively
search_in_file). -/
theorem C9_failure_fallback :
    (∀ (useFile : Bool) (remote : Except String Unit)
        (store : Option (List StoredDoc)) (docs : List StoredDoc),
      (∃ r, DataStaxVectorDB.insert_documents useFile remote store docs = Except.ok r)
      ∧ ∃ r, QdrantVectorDB.insert_documents useFile remote store docs = Except.ok r)
    ∧ (∀ (useFile : Bool) (remote : Except String Unit)
        (store : Option (List StoredDoc)) (q : List ℚ) (k : Nat),
      ∃ r, DataStaxVectorDB.search_similar useFile remote store q k = Except.ok r)
    ∧ (∀ (useFile : Bool) (remote : Except String (List StoredDoc))
        (store : Option (List StoredDoc)) (q : List ℚ) (k : Nat),
      ∃ r, QdrantVectorDB.search_similar useFile remote store q k = Except.ok r)
    ∧ (∀ (e : String) (store : Option (List StoredDoc)) (docs : List StoredDoc),
      DataStaxVectorDB.insert_documents false (Except.error e) store docs
        = Except.ok (DataStaxVectorDB.insert_to_file docs)
      ∧ QdrantVectorDB.insert_documents false (Except.error e) store docs
        = Except.ok (QdrantVectorDB.insert_to_file docs))
    ∧ (∀ (e : String) (store : Option (List StoredDoc)) (q : List ℚ) (k : Nat),
      DataStaxVectorDB.search_similar false (Except.error e) store q k
        = Except.ok (DataStaxVectorDB.search_in_file store q k)
      ∧ QdrantVectorDB.search_similar false (Except.error e) store q k
        = Except.ok (QdrantVectorDB.search_in_file store q k)) := by
  refine ⟨?_, ?_, ?_, ?_, ?_⟩
  · intro useFile remote store docs
    constructor
    · cases useFile <;> cases remote <;>
        simp [DataStaxVectorDB.insert_documents]
    · cases useFile <;> cases remote <;>
        simp [QdrantVectorDB.insert_documents]
  · intro useFile remote store q k
    cases useFile <;> cases remote <;>
      simp [DataStaxVectorDB.search_similar]
  · intro useFile remote store q k
    cases useFile <;> cases remote <;>
      simp [QdrantVectorDB.search_similar]
  · intro e store docs
    exact ⟨rfl, rfl⟩
  · intro e store q k
    exact ⟨rfl, rfl⟩

/-- C10: when some stored document lacks an embedding key, the DataStax
fallback search aborts (the KeyError is caught and turned into []) for every
query and limit, while the Qdrant fallback search skips exactly the
offending documents: its result equals a search over the store with the
embedding-less documents filtered out — so the two fallback implementations
disagree on malformed stored data. -/
theorem C10_missing_embedding_divergence (docs : List StoredDoc) (q : List ℚ)
    (k : Nat) (h : ∃ d ∈ docs, d.embedding = none) :
    DataStaxVectorDB.search_in_file (some docs) q k = []
    ∧ QdrantVectorDB.search_in_file (some docs) q k
        = QdrantVectorDB.search_in_file
            (some (docs.filter (fun d => d.embedding.isSome))) q k := by
  obtain ⟨d, hd, hde⟩ := h
  constructor
  · have hall : ¬ (docs.all (embOK q) = true) := by
      intro hall
      have hdok := List.all_eq_true.mp hall d hd
      rw [embOK, hde] at hdok
      simp at hdok
    have hred : DataStaxVectorDB.search_in_file (some docs) q k
        = if docs.all (embOK q) = true then
            List.take k (pysortDesc (docLT q) docs) else [] := rfl
    rw [hred, if_neg hall]
  · have hie : ¬ (docs.isEmpty = true) := by
      cases docs with
      | nil => exact absurd hd (List.not_mem_nil d)
      | cons x xs => simp
    have hredL : QdrantVectorDB.search_in_file (some docs) q k
        = if docs.isEmpty = true then []
          else
            if (docs.filter (fun x => x.embedding.isSome)).all (embOK q) = true then
              List.take k
                (pysortDesc (docLT q) (docs.filter (fun x => x.embedding.isSome)))
            else [] := rfl
    have hff : (docs.filter (fun x => x.embedding.isSome)).filter
        (fun x => x.embedding.isSome) = docs.filter (fun x => x.embedding.isSome) :=
      List.filter_eq_self.mpr (fun x hx => (List.mem_filter.mp hx).2)
    have hredR : QdrantVectorDB.search_in_file
          (some (docs.filter (fun x => x.embedding.isSome))) q k
        = if (docs.filter (fun x => x.embedding.isSome)).isEmpty = true then []
          else
            if ((docs.filter (fun x => x.embedding.isSome)).filter
                (fun x => x.embedding.isSome)).all (embOK q) = true then
              List.take k (pysortDesc (docLT q)
                ((docs.filter (fun x => x.embedding.isSome)).filter
                  (fun x => x.embedding.isSome)))
            else [] := rfl
    rw [hredL, hredR, if_neg hie, hff]
    by_cases hFe : (docs.filter (fun x => x.embedding.isSome)).isEmpty = true
    · rw [if_pos hFe]
      have hF : docs.filter (fun x => x.embedding.isSome) = [] :=
        List.isEmpty_iff.mp hFe
      rw [hF]
      rw [if_pos (show ([] : List StoredDoc).all (embOK q) = true from rfl)]
      show List.take k ([] : List StoredDoc) = []
      exact List.take_nil
    · rw [if_neg hFe]

/-- Witness for C10_missing_embedding_divergence: a store with one document
missing its embedding and one well-formed document. -/
theorem C10_missing_embedding_divergence_witness :
    (∃ d ∈ ([⟨"bad", none, none⟩, ⟨"good", some [1], none⟩] : List StoredDoc),
        d.embedding = none)
    ∧ (DataStaxVectorDB.search_in_file
          (some [⟨"bad", none, none⟩, ⟨"good", some [1], none⟩]) [1] 5 = []
      ∧ QdrantVectorDB.search_in_file
          (some [⟨"bad", none, none⟩, ⟨"good", some [1], none⟩]) [1] 5
        = QdrantVectorDB.search_in_file
            (some (([⟨"bad", none, none⟩, ⟨"good", some [1], none⟩] :
              List StoredDoc).filter (fun d => d.embedding.isSome))) [1] 5) :=
  ⟨by decide,
    C10_missing_embedding_divergence
      [⟨"bad", none, none⟩, ⟨"good", some [1], none⟩] [1] 5 (by decide)⟩
